import Mathlib

/-!
# A verification model of the zpack `Package` class (`zpPackage.cpp`)

This file gives a shallow embedding of the in-memory behaviour of the
`zp::Package` class of the zpack repository (single source file
`src/zpack/zpPackage.cpp`) and proves properties of its operations.

Modelling conventions:

* Machine integers (`u32`, `u64`) are modelled as `Nat` with an explicit
  `% U32` / `% U64` applied exactly where the C++ arithmetic can wrap.
* The underlying byte stream is not modelled; operations that read or write
  the stream are modelled by their effect on the in-memory state
  (`m_fileEntries`, `m_filenames`, `m_hashTable`, `m_header`, flags), with
  the stream contents supplied as explicit inputs (the `OpenInput`
  structure for the constructor, and the external file's size for
  `addFile`).
* C++ behaviour that is undefined or non-terminating (indexing a vector
  out of bounds, `% 0` on an empty hash table, an infinite probe loop on a
  full hash table) is modelled by `Option`, with `none` for the
  undefined/non-terminating cases; loops whose iteration count is bounded
  by the data are written with explicit fuel chosen so that `none` is
  returned exactly when the C++ loop would not finish a full sweep.
-/

set_option maxRecDepth 100000

/-- `2^32`, the modulus of `u32` arithmetic. -/
def U32 : Nat := 4294967296

/-- `2^64`, the modulus of `u64` arithmetic. -/
def U64 : Nat := 18446744073709551616

/-- `MIN_HASH_TABLE_SIZE` from `zpPackage.cpp`. -/
def MIN_HASH_TABLE_SIZE : Nat := 256

/-- `MAX_HASH_TABLE_SIZE` from `zpPackage.cpp` (0x80000). -/
def MAX_HASH_TABLE_SIZE : Nat := 524288

/-- `HASH_SEED0` from `zpPackage.cpp`. -/
def HASH_SEED0 : Nat := 31

/-- `HASH_SEED1` from `zpPackage.cpp`. -/
def HASH_SEED1 : Nat := 131

/-- `HASH_SEED2` from `zpPackage.cpp`. -/
def HASH_SEED2 : Nat := 1313

/-- Modelled from the spec: `FILE_FLAG_DELETED`, the tombstone bit of an
entry's flag field, is declared in the missing header `zpPackage.h`; the
spec says the flag field currently holds one bit ("deleted/tombstoned"),
so it is modelled as bit 0. -/
def FILE_FLAG_DELETED : Nat := 1

/-- Modelled from the spec: `FLAG_REPLACE`, the replace bit of the
`addFile` flags argument, is declared in the missing header; modelled
as bit 0 of that (independent) flag word. -/
def FLAG_REPLACE : Nat := 1

/-- Modelled from the spec: `sizeof(PackageHeader)`. The header record has
eight fields (signature, version, header size, entry-table offset and
per-record size, entry count, name-blob offset and size); with two 64-bit
offsets and six 32-bit fields this is 40 bytes. The exact value is an
implementation constant; everything below is stated relative to this
definition. -/
def sizeofPackageHeader : Nat := 40

/-- Modelled from the spec: `sizeof(FileEntry)` (three 32-bit hashes, a
32-bit flag word, a 64-bit byte offset and a 32-bit size, padded). -/
def sizeofFileEntry : Nat := 32

/-- Modelled from the spec: `PACKAGE_FILE_SIGN`, the magic signature
constant from the missing header. The value is arbitrary but fixed. -/
def PACKAGE_FILE_SIGN : Nat := 1262571590

/-- Modelled from the spec: `CURRENT_VERSION` from the missing header. -/
def CURRENT_VERSION : Nat := 1

/-- One record of the in-memory entry table (`FileEntry`): three name
hashes, a flag word, the byte offset of the content and its length.
Field widths: `hash0`..`flag`, `fileSize` are `u32`; `byteOffset` is
`u64`. -/
structure FileEntry where
  hash0 : Nat
  hash1 : Nat
  hash2 : Nat
  flag : Nat
  byteOffset : Nat
  fileSize : Nat
deriving DecidableEq, Repr, Inhabited

/-- The package header (`PackageHeader`): signature, version, header size,
entry-table geometry, entry count and name-blob geometry. `fileEntryOffset`
and `filenameOffset` are `u64`; the other fields are `u32`. -/
structure PackageHeader where
  sign : Nat
  version : Nat
  headerSize : Nat
  fileEntrySize : Nat
  fileEntryOffset : Nat
  fileCount : Nat
  filenameOffset : Nat
  filenameSize : Nat
deriving DecidableEq, Repr, Inhabited

/-- The in-memory state of a `Package` instance: the header, the entry
table `m_fileEntries`, the parallel name table `m_filenames`, the hash
index `m_hashTable` (slot value `-1` = empty), the `m_readonly` and
`m_dirty` flags, and `valid` for `m_stream.is_open()` (the `valid()`
accessor). -/
structure Package where
  header : PackageHeader
  fileEntries : List FileEntry
  filenames : List String
  hashTable : List Int
  readonly : Bool
  dirty : Bool
  valid : Bool
deriving DecidableEq, Repr, Inhabited

/-- `tolower` on a character code, as used by `stringHash` (ASCII). -/
def tolowerNat (n : Nat) : Nat :=
  if 65 ≤ n ∧ n ≤ 90 then n + 32 else n

/-- The accumulator loop of `Package::stringHash`:
`out = out * seed + tolower(*str++)` in `u32` arithmetic. -/
def stringHashAux (seed : Nat) : Nat → List Char → Nat
  | acc, [] => acc
  | acc, c :: cs => stringHashAux seed ((acc * seed + tolowerNat c.toNat) % U32) cs

/-- `Package::stringHash`. -/
def stringHash (s : String) (seed : Nat) : Nat :=
  stringHashAux seed 0 s.toList

/-- Whether an entry carries the tombstone bit
(`(entry.flag & FILE_FLAG_DELETED) != 0`). -/
def isDeleted (e : FileEntry) : Bool :=
  e.flag &&& FILE_FLAG_DELETED != 0

/-- `u64` subtraction `a - b` with wraparound, total on `Nat`. -/
def sub64 (a b : Nat) : Nat :=
  (a % U64 + (U64 - b % U64)) % U64

/-- The validation performed by `Package::readHeader` after reading the
header record: signature, minimum sizes, and that the entry table and the
name blob lie inside the physical file. The multiplication
`fileCount * fileEntrySize` is `u32`, the offset additions are `u64`. -/
def readHeaderOk (h : PackageHeader) (packageSize : Nat) : Bool :=
  decide (h.sign = PACKAGE_FILE_SIGN) &&
  decide (sizeofPackageHeader ≤ h.headerSize) &&
  decide (sizeofFileEntry ≤ h.fileEntrySize) &&
  decide (h.headerSize ≤ h.fileEntryOffset) &&
  decide (((h.fileCount * h.fileEntrySize) % U32 + h.fileEntryOffset) % U64 ≤ packageSize) &&
  decide ((h.filenameOffset + h.filenameSize) % U64 ≤ packageSize)

/-- `resize` followed by reading: the first `n` elements of `l`, padded
with default-initialised elements if `l` is shorter (a short stream leaves
the trailing records default/indeterminate; we model them as `default`). -/
def padTake {α : Type} [Inhabited α] : Nat → List α → List α
  | 0, _ => []
  | n + 1, [] => default :: padTake n []
  | n + 1, x :: l => x :: padTake n l

/-- The per-entry validation loop of `Package::readFileEntries`: before
reading each record, `nextOffset < fileEntryOffset` must hold; after
reading it, `entry.byteOffset ≥ nextOffset`; then
`nextOffset = entry.byteOffset + entry.fileSize` (`u64`). -/
def entriesCheck (fileEntryOffset : Nat) : Nat → List FileEntry → Bool
  | _, [] => true
  | nextOffset, e :: es =>
    decide (nextOffset < fileEntryOffset) &&
    decide (nextOffset ≤ e.byteOffset) &&
    entriesCheck fileEntryOffset ((e.byteOffset + e.fileSize) % U64) es

/-- `Package::readFileEntries`: resize the table to `fileCount`, read the
records from the stream (`disk`), and validate them; `none` on a failed
structural check. -/
def readFileEntries (h : PackageHeader) (disk : List FileEntry) : Option (List FileEntry) :=
  let es := padTake h.fileCount disk
  if entriesCheck h.fileEntryOffset h.headerSize es then some es else none

/-- `Package::readFilenames`: skipped entirely (leaving `m_filenames`
empty) for an empty entry table or a read-only package; otherwise reads
one newline-terminated name per entry (`getline` at end of stream yields
the empty string, modelled by padding). Always reports success. -/
def readFilenames (entries : List FileEntry) (readonly : Bool) (diskNames : List String) : List String :=
  if entries.isEmpty || readonly then [] else padTake entries.length diskNames

/-- The size-selection loop of `Package::buildHashTable`:
`while (tableSize < fileCount) { if (tableSize >= MAX) fail; tableSize *= 2; }`.
The loop is bounded by the doubling; `fuel` is a modelling bound chosen
large enough (64) that exhaustion is unreachable from the real start
value. -/
def growTableSize : Nat → Nat → Nat → Option Nat
  | fuel, tableSize, fileCount =>
    if fileCount ≤ tableSize then some tableSize
    else match fuel with
      | 0 => none
      | fuel + 1 =>
        if MAX_HASH_TABLE_SIZE ≤ tableSize then none
        else growTableSize fuel (2 * tableSize) fileCount

/-- The table size chosen by `Package::buildHashTable` for a given entry
count: grow from `MIN_HASH_TABLE_SIZE / 2`, then double once more. -/
def hashTableSize (fileCount : Nat) : Option Nat :=
  (growTableSize 64 (MIN_HASH_TABLE_SIZE / 2) fileCount).map (fun t => 2 * t)

/-- Linear probe for the first empty (`-1`) slot starting at `idx`,
wrapping (`if (++index >= tableSize) index = 0`). Fuel bounds the sweep;
a full table makes the C++ loop spin forever, modelled by `none`. -/
def findEmptySlot : Nat → Nat → List Int → Option Nat
  | 0, _, _ => none
  | fuel + 1, idx, table =>
    match table.get? idx with
    | none => none
    | some v =>
      if v = -1 then some idx
      else findEmptySlot fuel (if table.length ≤ idx + 1 then 0 else idx + 1) table

/-- The insertion loop of `Package::buildHashTable`: for `i` in
`[0, fileCount)`, probe from `entries[i].hash0 % tableSize` and store `i`
in the first empty slot. -/
def htInsertLoop : Nat → Nat → List FileEntry → List Int → Option (List Int)
  | 0, _, _, table => some table
  | n + 1, i, entries, table =>
    let e := entries.getD i default
    match findEmptySlot table.length (e.hash0 % table.length) table with
    | none => none
    | some slot => htInsertLoop n (i + 1) entries (table.set slot (Int.ofNat i))

/-- `Package::buildHashTable`: pick the table size, clear the table to
`-1`, insert every entry index. `none` is the `return false` of the
source (and, from the insertion loop, the modelled non-termination of a
probe on a full table, which the chosen size makes unreachable). -/
def buildHashTable (fileCount : Nat) (entries : List FileEntry) : Option (List Int) :=
  match hashTableSize fileCount with
  | none => none
  | some size => htInsertLoop fileCount 0 entries (List.replicate size (-1))

/-- The data the constructor reads from the environment: whether the
stream opened, the header record, the physical file size, the entry
records and the names stored on disk. -/
structure OpenInput where
  streamOk : Bool
  header : PackageHeader
  packageSize : Nat
  diskEntries : List FileEntry
  diskNames : List String
deriving Repr, Inhabited

/-- A `Package` whose construction failed: the stream is closed
(`valid = false`), the hash table was never built (empty), the name table
was never read. `es` is whatever `readFileEntries` left in the resized
entry table. -/
def invalidPackage (h : PackageHeader) (es : List FileEntry) (ro : Bool) : Package :=
  { header := h, fileEntries := es, filenames := [], hashTable := [],
    readonly := ro, dirty := false, valid := false }

/-- `Package::Package` (the constructor): open the stream, read and check
the header, the entry table and the names, then call `buildHashTable`
discarding its result (`m_hashTable` stays empty when it fails). A version
mismatch forces `m_readonly` before the names are read. -/
def openPackage (inp : OpenInput) (readonly : Bool) : Package :=
  if !inp.streamOk then invalidPackage inp.header [] readonly
  else if !readHeaderOk inp.header inp.packageSize then invalidPackage inp.header [] readonly
  else
    let ro := readonly || decide (inp.header.version ≠ CURRENT_VERSION)
    match readFileEntries inp.header inp.diskEntries with
    | none => invalidPackage inp.header (padTake inp.header.fileCount inp.diskEntries) ro
    | some es =>
      { header := inp.header,
        fileEntries := es,
        filenames := readFilenames es ro inp.diskNames,
        hashTable := (buildHashTable inp.header.fileCount es).getD [],
        readonly := ro, dirty := false, valid := true }

/-- Whether an entry's three stored hashes all equal the query's three
hashes (the name-equality test of `getFileIndex`). -/
def hashesMatch (e : FileEntry) (h0 h1 h2 : Nat) : Bool :=
  decide (e.hash0 = h0) && decide (e.hash1 = h1) && decide (e.hash2 = h2)

/-- The wrapping slot increment `if (++index >= size) index = 0`. -/
def probeAdvance (len idx : Nat) : Nat :=
  if len ≤ idx + 1 then 0 else idx + 1

/-- The probe loop of `Package::getFileIndex`. `some (-1)` is "not found"
(an empty slot, or a full-hash match on a tombstoned entry); `some fi`
with `fi ≥ 0` is a live match. `none` models undefined behaviour (a slot
index out of range, a stored entry index out of range) or the infinite
loop on a full table (fuel = table size, one full sweep). -/
def probeLookup (entries : List FileEntry) (table : List Int) (h0 h1 h2 : Nat) :
    Nat → Nat → Option Int
  | 0, _ => none
  | fuel + 1, hashIndex =>
    match table.get? hashIndex with
    | none => none
    | some fi =>
      if fi < 0 then some (-1)
      else match entries.get? fi.toNat with
        | none => none
        | some e =>
          if hashesMatch e h0 h1 h2 then
            if isDeleted e then some (-1) else some fi
          else probeLookup entries table h0 h1 h2 fuel (probeAdvance table.length hashIndex)

/-- `Package::getFileIndex`: hash the query name three times and walk the
probe chain from `hash0 % m_hashTable.size()`. An empty hash table makes
the modulo divisor zero (undefined behaviour in the source), modelled by
`none`. -/
def getFileIndex (pkg : Package) (filename : String) : Option Int :=
  if pkg.hashTable.length = 0 then none
  else
    probeLookup pkg.fileEntries pkg.hashTable
      (stringHash filename HASH_SEED0) (stringHash filename HASH_SEED1)
      (stringHash filename HASH_SEED2)
      pkg.hashTable.length
      (stringHash filename HASH_SEED0 % pkg.hashTable.length)

/-- Insert `a` at position `n` (`vector::insert(begin() + n, a)`); an
index past the end (undefined in C++, unreachable in the source because
the splice index is a valid entry index) is modelled as appending. -/
def insertAt {α : Type} : Nat → α → List α → List α
  | 0, a, l => a :: l
  | _ + 1, a, [] => [a]
  | n + 1, a, x :: l => x :: insertAt n a l

/-- Apply `f` to the element at position `n`, if any. -/
def modifyAt {α : Type} (f : α → α) : Nat → List α → List α
  | _, [] => []
  | 0, e :: es => f e :: es
  | n + 1, e :: es => e :: modifyAt f n es

/-- `Package::fixHashTable`: increment every stored entry index that is
`≥ index` (the splice position). -/
def fixHashTable (table : List Int) (index : Nat) : List Int :=
  table.map (fun v => if Int.ofNat index ≤ v then v + 1 else v)

/-- The gap-scan loop of `Package::insertFile`: walk the entry table with
`lastEnd` (initially the header size), skip tombstoned entries, and stop
at the first live entry whose gap `byteOffset - lastEnd` (`u64`
subtraction) is at least the new entry's size. Returns the splice position
and the chosen offset, or `none` if the scan falls off the end. -/
def findPos (fileSize : Nat) : Nat → List FileEntry → Option (Nat × Nat)
  | _, [] => none
  | lastEnd, e :: es =>
    if isDeleted e then (findPos fileSize lastEnd es).map (fun p => (p.1 + 1, p.2))
    else if fileSize ≤ sub64 e.byteOffset lastEnd then some (0, lastEnd)
    else (findPos fileSize ((e.byteOffset + e.fileSize) % U64) es).map (fun p => (p.1 + 1, p.2))

/-- The result of `Package::insertFile`: the updated tables, the updated
`m_header.fileEntryOffset`, and the offset assigned to the new entry. -/
structure InsertResult where
  fileEntries : List FileEntry
  filenames : List String
  hashTable : List Int
  fileEntryOffset : Nat
  byteOffset : Nat
deriving DecidableEq, Repr

/-- `Package::insertFile`: splice at the first fitting gap (updating the
hash table in place via `fixHashTable`), or append after the last entry of
the table (after `sizeof(PackageHeader)` if the table is empty), in which
case `m_header.fileEntryOffset` is advanced past the new entry. -/
def insertFile (hdr : PackageHeader) (entries : List FileEntry) (names : List String)
    (table : List Int) (entry : FileEntry) (filename : String) : InsertResult :=
  match findPos entry.fileSize hdr.headerSize entries with
  | some (i, off) =>
    { fileEntries := insertAt i { entry with byteOffset := off } entries,
      filenames := insertAt i filename names,
      hashTable := fixHashTable table i,
      fileEntryOffset := hdr.fileEntryOffset,
      byteOffset := off }
  | none =>
    let off := match entries.getLast? with
      | none => sizeofPackageHeader
      | some last => (last.byteOffset + last.fileSize) % U64
    { fileEntries := entries ++ [{ entry with byteOffset := off }],
      filenames := names ++ [filename],
      hashTable := table,
      fileEntryOffset := (off + entry.fileSize) % U64,
      byteOffset := off }

/-- The state update of a successful `Package::removeFile` at entry index
`i`: set the tombstone bit, decrement the header's entry count (`u32`),
recompute the name-blob offset, mark dirty. -/
def tombstoneAt (pkg : Package) (i : Nat) : Package :=
  let fc := (pkg.header.fileCount + (U32 - 1)) % U32
  { pkg with
    fileEntries := modifyAt (fun e => { e with flag := e.flag ||| FILE_FLAG_DELETED }) i pkg.fileEntries,
    header := { pkg.header with
      fileCount := fc,
      filenameOffset := (pkg.header.fileEntryOffset + sizeofFileEntry * fc) % U64 },
    dirty := true }

/-- `Package::removeFile`. `none` propagates an undefined lookup. -/
def removeFile (pkg : Package) (filename : String) : Option (Bool × Package) :=
  if pkg.readonly then some (false, pkg)
  else match getFileIndex pkg filename with
    | none => none
    | some fi =>
      if fi < 0 then some (false, pkg)
      else some (true, tombstoneAt pkg fi.toNat)

/-- The unconditional tail of `Package::addFile` once the checks have
passed: build the new entry (hashes of the name, flag 0, size truncated to
`u32`), place it with `insertFile`, write the content (not modelled),
increment the entry count, recompute the name-blob offset, mark dirty. -/
def addFilePlace (pkg : Package) (contentSize : Nat) (filename : String) : Package :=
  let entry : FileEntry :=
    { hash0 := stringHash filename HASH_SEED0,
      hash1 := stringHash filename HASH_SEED1,
      hash2 := stringHash filename HASH_SEED2,
      flag := 0,
      byteOffset := 0,
      fileSize := contentSize % U32 }
  let r := insertFile pkg.header pkg.fileEntries pkg.filenames pkg.hashTable entry filename
  let fc := (pkg.header.fileCount + 1) % U32
  { pkg with
    fileEntries := r.fileEntries,
    filenames := r.filenames,
    hashTable := r.hashTable,
    header := { pkg.header with
      fileEntryOffset := r.fileEntryOffset,
      fileCount := fc,
      filenameOffset := (r.fileEntryOffset + sizeofFileEntry * fc) % U64 },
    dirty := true }

/-- `Package::addFile`. `externalOk` is whether the external source file
opened; `contentSize` is its size. A name that resolves to a live entry
fails unless `FLAG_REPLACE` is set, in which case `removeFile` tombstones
it first. `none` propagates an undefined lookup. -/
def addFile (pkg : Package) (externalOk : Bool) (contentSize : Nat) (filename : String)
    (flag : Nat) : Option (Bool × Package) :=
  if pkg.readonly then some (false, pkg)
  else if !externalOk then some (false, pkg)
  else match getFileIndex pkg filename with
    | none => none
    | some fi =>
      if 0 ≤ fi then
        if flag &&& FLAG_REPLACE = 0 then some (false, pkg)
        else match removeFile pkg filename with
          | none => none
          | some (_, p1) => some (true, addFilePlace p1 contentSize filename)
      else some (true, addFilePlace pkg contentSize filename)

/-- The compaction loop of `Package::flush`: walk the entry table and the
name table in lockstep, erasing tombstoned records from both. The source
asserts the two tables have equal length; if the entry table is longer the
lockstep erase past the end of the name table is undefined in C++, and the
model simply keeps compacting entries. -/
def flushCompact : List FileEntry → List String → List FileEntry × List String
  | [], ns => ([], ns)
  | e :: es, [] =>
    if isDeleted e then flushCompact es []
    else
      let r := flushCompact es []
      (e :: r.1, r.2)
  | e :: es, n :: ns =>
    if isDeleted e then flushCompact es ns
    else
      let r := flushCompact es ns
      (e :: r.1, n :: r.2)

/-- `Package::flush`: a no-op when read-only or clean; otherwise drop the
tombstoned records (and their names), rewrite the tables and the header to
the stream (not modelled), recompute `filenameSize` (`u32`), rebuild the
hash table — keeping the old one if `buildHashTable` fails, whose result
is discarded — and clear the dirty flag. -/
def flush (pkg : Package) : Package :=
  if pkg.readonly || !pkg.dirty then pkg
  else
    let c := flushCompact pkg.fileEntries pkg.filenames
    let fns := c.2.foldl (fun acc n => (acc + n.length + 1) % U32) 0
    let table := match buildHashTable pkg.header.fileCount c.1 with
      | some t => t
      | none => pkg.hashTable
    { pkg with
      fileEntries := c.1,
      filenames := c.2,
      header := { pkg.header with filenameSize := fns },
      hashTable := table,
      dirty := false }

/-- The relocation loop of `Package::defrag`: pack every entry's content
tight from the end of the header, updating `byteOffset` to the running
position (`u64`); returns the packed table and the final position. -/
def defragPack : Nat → List FileEntry → List FileEntry × Nat
  | nextPos, [] => ([], nextPos)
  | nextPos, e :: es =>
    let r := defragPack ((nextPos + e.fileSize) % U64) es
    ({ e with byteOffset := nextPos } :: r.1, r.2)

/-- `Package::defrag`: refused when read-only or dirty; otherwise pack the
content, move the entry table and name blob to follow it, mark dirty and
`flush`. The stream is then closed and reopened around the physical
truncation; `reopenOk` is whether `fopen` succeeded — when it fails the
function returns `false` with the stream closed (`valid` becomes false). -/
def defrag (pkg : Package) (reopenOk : Bool) : Bool × Package :=
  if pkg.readonly || pkg.dirty then (false, pkg)
  else
    let r := defragPack pkg.header.headerSize pkg.fileEntries
    let fc := pkg.header.fileCount
    let p1 : Package := { pkg with
      fileEntries := r.1,
      header := { pkg.header with
        fileEntryOffset := r.2,
        filenameOffset := (r.2 + sizeofFileEntry * fc) % U64 },
      dirty := true }
    let p2 := flush p1
    if !reopenOk then (false, { p2 with valid := false })
    else (true, p2)

/-! ## Invariants and derived predicates -/

/-- The allocation chain over the live entries of the table, anchored at
`lastEnd`: tombstoned entries are skipped (as the gap scan of `insertFile`
does); every live entry starts at or after the running end, and its end
does not overflow `u64`. -/
def chainFromB (lastEnd : Nat) : List FileEntry → Bool
  | [] => true
  | e :: es =>
    if isDeleted e then chainFromB lastEnd es
    else
      decide (lastEnd ≤ e.byteOffset) &&
      decide (e.byteOffset + e.fileSize < U64) &&
      chainFromB (e.byteOffset + e.fileSize) es

/-- The allocation chain over all entries of the table (what
`readFileEntries` validates, flags included). -/
def fullChainB (lastEnd : Nat) : List FileEntry → Bool
  | [] => true
  | e :: es =>
    decide (lastEnd ≤ e.byteOffset) &&
    decide (e.byteOffset + e.fileSize < U64) &&
    fullChainB (e.byteOffset + e.fileSize) es

/-- The end of the last live entry, starting from `lastEnd` (the final
value of the `lastEnd` scan variable of `insertFile`). -/
def liveEnd (lastEnd : Nat) : List FileEntry → Nat
  | [] => lastEnd
  | e :: es =>
    if isDeleted e then liveEnd lastEnd es
    else liveEnd (e.byteOffset + e.fileSize) es

/-- The end of the last entry of the table regardless of flags, starting
from `lastEnd`. -/
def fullEnd (lastEnd : Nat) : List FileEntry → Nat
  | [] => lastEnd
  | e :: es => fullEnd (e.byteOffset + e.fileSize) es

/-- The offset `insertFile` would append at: the end of the last entry of
the table (tombstoned or not), or `sizeof(PackageHeader)` for an empty
table. -/
def appendEnd (es : List FileEntry) : Nat :=
  match es.getLast? with
  | none => sizeofPackageHeader
  | some last => last.byteOffset + last.fileSize

/-- The append-position side condition of the invariant: the end of the
last live entry never exceeds the end of the last table entry, and the
latter fits in `u64`. -/
def tableEndOkB (hs : Nat) (es : List FileEntry) : Bool :=
  match es.getLast? with
  | none => true
  | some last =>
    decide (liveEnd hs es ≤ last.byteOffset + last.fileSize) &&
    decide (last.byteOffset + last.fileSize < U64)

/-- The state invariant maintained by the package operations: the header
size is the built-in one (`readHeader` only checks `≥`, but the
empty-table append path of `insertFile` hard-codes
`sizeof(PackageHeader)`, so the invariant is only inductive when the two
agree), the live entries form an allocation chain from the header end,
and appends land after every live entry. -/
def pkgInv (pkg : Package) : Bool :=
  decide (pkg.header.headerSize = sizeofPackageHeader) &&
  chainFromB pkg.header.headerSize pkg.fileEntries &&
  tableEndOkB pkg.header.headerSize pkg.fileEntries

/-- The entry table is sorted by ascending byte offset. -/
def sortedByOffsetB : List FileEntry → Bool
  | [] => true
  | [_] => true
  | a :: b :: es => decide (a.byteOffset ≤ b.byteOffset) && sortedByOffsetB (b :: es)

/-- The byte ranges of two entries are disjoint. -/
def rangesDisjointB (a b : FileEntry) : Bool :=
  decide (a.byteOffset + a.fileSize ≤ b.byteOffset) ||
  decide (b.byteOffset + b.fileSize ≤ a.byteOffset)

/-- All pairs of entries in the list have disjoint byte ranges. -/
def pairwiseDisjointB : List FileEntry → Bool
  | [] => true
  | e :: es => es.all (rangesDisjointB e) && pairwiseDisjointB es

/-- The live (non-tombstoned) entries of a table. -/
def liveList (es : List FileEntry) : List FileEntry :=
  es.filter (fun e => !isDeleted e)

/-- The position reached after `k` wrapping probe steps from `start` in a
table of `len` slots. -/
def probePosition (len start : Nat) : Nat → Nat
  | 0 => start
  | k + 1 => probeAdvance len (probePosition len start k)

/-- The gap positions described by the spec: the end of the last live
entry among the first `j` table entries, starting from the header end. -/
def liveEndUpTo (hs : Nat) (es : List FileEntry) (j : Nat) : Nat :=
  liveEnd hs (es.take j)

/-- The first-fit position as the spec words it: the first index `j`
holding a live entry whose offset leaves a gap of at least `s` after the
end of the live entries before it. -/
def firstFitIndex (hs s : Nat) (es : List FileEntry) : Option Nat :=
  (List.range es.length).find? (fun j =>
    match es.get? j with
    | some e => !isDeleted e && decide (liveEndUpTo hs es j + s ≤ e.byteOffset)
    | none => false)

/-! ## Concrete instances used in the theorems below -/

/-- An empty writable archive: a bare current-version header, no entries. -/
def emptyInput : OpenInput :=
  { streamOk := true,
    header := { sign := PACKAGE_FILE_SIGN, version := CURRENT_VERSION,
                headerSize := sizeofPackageHeader, fileEntrySize := sizeofFileEntry,
                fileEntryOffset := 40, fileCount := 0, filenameOffset := 40, filenameSize := 0 },
    packageSize := 40, diskEntries := [], diskNames := [] }

/-- Entry named "a" (all three hashes are 97) at bytes `[40, 50)`. -/
def entryA : FileEntry :=
  { hash0 := 97, hash1 := 97, hash2 := 97, flag := 0, byteOffset := 40, fileSize := 10 }

/-- Entry named "t" (hashes 116) at bytes `[60, 65)`: a gap precedes it. -/
def entryT : FileEntry :=
  { hash0 := 116, hash1 := 116, hash2 := 116, flag := 0, byteOffset := 60, fileSize := 5 }

/-- Entry named "b" (hashes 98) at bytes `[80, 90)`. -/
def entryB80 : FileEntry :=
  { hash0 := 98, hash1 := 98, hash2 := 98, flag := 0, byteOffset := 80, fileSize := 10 }

/-- Entry named "b" (hashes 98) at bytes `[50, 60)`. -/
def entryB50 : FileEntry :=
  { hash0 := 98, hash1 := 98, hash2 := 98, flag := 0, byteOffset := 50, fileSize := 10 }

/-- A writable archive holding "a" at `[40,50)`, "t" at `[60,65)` (with a
gap at `[50,60)` before it, as `readFileEntries` allows) and "b" at
`[80,90)`. -/
def gapInput : OpenInput :=
  { streamOk := true,
    header := { sign := PACKAGE_FILE_SIGN, version := CURRENT_VERSION,
                headerSize := sizeofPackageHeader, fileEntrySize := sizeofFileEntry,
                fileEntryOffset := 90, fileCount := 3, filenameOffset := 186, filenameSize := 6 },
    packageSize := 192, diskEntries := [entryA, entryT, entryB80], diskNames := ["a", "t", "b"] }

/-- A writable archive holding "a" at `[40,50)` and "b" at `[50,60)`. -/
def twoEntryInput : OpenInput :=
  { streamOk := true,
    header := { sign := PACKAGE_FILE_SIGN, version := CURRENT_VERSION,
                headerSize := sizeofPackageHeader, fileEntrySize := sizeofFileEntry,
                fileEntryOffset := 60, fileCount := 2, filenameOffset := 124, filenameSize := 4 },
    packageSize := 128, diskEntries := [entryA, entryB50], diskNames := ["a", "b"] }

/-- An empty writable archive whose header claims a header size ten bytes
larger than `sizeof(PackageHeader)` — accepted by `readHeader`, which only
checks `headerSize ≥ sizeof(PackageHeader)`. -/
def bigHeaderInput : OpenInput :=
  { streamOk := true,
    header := { sign := PACKAGE_FILE_SIGN, version := CURRENT_VERSION,
                headerSize := sizeofPackageHeader + 10, fileEntrySize := sizeofFileEntry,
                fileEntryOffset := sizeofPackageHeader + 10, fileCount := 0,
                filenameOffset := sizeofPackageHeader + 10, filenameSize := 0 },
    packageSize := 50, diskEntries := [], diskNames := [] }

/-- A non-empty archive (one entry named "a") to be opened read-only. -/
def oneEntryInput : OpenInput :=
  { streamOk := true,
    header := { sign := PACKAGE_FILE_SIGN, version := CURRENT_VERSION,
                headerSize := sizeofPackageHeader, fileEntrySize := sizeofFileEntry,
                fileEntryOffset := 50, fileCount := 1, filenameOffset := 82, filenameSize := 2 },
    packageSize := 84, diskEntries := [entryA], diskNames := ["a"] }

/-- 128 entries with pairwise distinct primary hashes. -/
def entries128 : List FileEntry :=
  (List.range 128).map (fun i =>
    { hash0 := i, hash1 := 0, hash2 := 0, flag := 0, byteOffset := 0, fileSize := 0 })

/-- A zero-length live entry at the header end, usable in long replicated
tables (every copy passes the `readFileEntries` checks). -/
def zeroEntry : FileEntry :=
  { hash0 := 0, hash1 := 0, hash2 := 0, flag := 0, byteOffset := 40, fileSize := 0 }

/-- An archive with 524289 zero-length entries — one more than
`MAX_HASH_TABLE_SIZE` — structurally valid for `readHeader` and
`readFileEntries`. -/
def hugeInput : OpenInput :=
  { streamOk := true,
    header := { sign := PACKAGE_FILE_SIGN, version := CURRENT_VERSION,
                headerSize := sizeofPackageHeader, fileEntrySize := sizeofFileEntry,
                fileEntryOffset := 72, fileCount := 524289,
                filenameOffset := 16777320, filenameSize := 0 },
    packageSize := 16777320,
    diskEntries := List.replicate 524289 zeroEntry, diskNames := [] }

/-- A writable dirty package with 524289 live entries (reachable by adding
524289 zero-length files to an empty package: each add splices at the
header end, and new entries are never inserted into the hash index, so the
index stays the initial 256 empty slots). -/
def hugePkg : Package :=
  { header := { sign := PACKAGE_FILE_SIGN, version := CURRENT_VERSION,
                headerSize := sizeofPackageHeader, fileEntrySize := sizeofFileEntry,
                fileEntryOffset := 40, fileCount := 524289,
                filenameOffset := 16777288, filenameSize := 0 },
    fileEntries := List.replicate 524289 zeroEntry,
    filenames := List.replicate 524289 "x",
    hashTable := List.replicate 256 (-1),
    readonly := false, dirty := true, valid := true }

/-- A small writable dirty package: a live "a" and a tombstoned "b". -/
def smallDirtyPkg : Package :=
  { header := { sign := PACKAGE_FILE_SIGN, version := CURRENT_VERSION,
                headerSize := sizeofPackageHeader, fileEntrySize := sizeofFileEntry,
                fileEntryOffset := 60, fileCount := 1, filenameOffset := 92, filenameSize := 4 },
    fileEntries := [entryA, { entryB50 with flag := FILE_FLAG_DELETED }],
    filenames := ["a", "b"],
    hashTable := List.replicate 256 (-1),
    readonly := false, dirty := true, valid := true }

/-- A one-slot package state whose only hash slot points at a tombstoned
entry matching the name "a" on all three hashes. -/
def probePkg : Package :=
  { header := { sign := PACKAGE_FILE_SIGN, version := CURRENT_VERSION,
                headerSize := sizeofPackageHeader, fileEntrySize := sizeofFileEntry,
                fileEntryOffset := 40, fileCount := 1, filenameOffset := 72, filenameSize := 2 },
    fileEntries := [{ hash0 := 97, hash1 := 97, hash2 := 97, flag := FILE_FLAG_DELETED,
                      byteOffset := 40, fileSize := 0 }],
    filenames := ["a"],
    hashTable := [0],
    readonly := false, dirty := false, valid := true }

/-- An `OpenInput` whose stream fails to open. -/
def failedInput : OpenInput :=
  { streamOk := false,
    header := default, packageSize := 0, diskEntries := [], diskNames := [] }

/-! ## Lemmas about the hash-table size computation -/

theorem growTableSize_pow (fuel : Nat) :
    ∀ ts n t k, ts = 2 ^ k → growTableSize fuel ts n = some t →
      (∃ m, t = 2 ^ m) ∧ n ≤ t ∧ ts ≤ t ∧ (ts ≤ MAX_HASH_TABLE_SIZE → t ≤ MAX_HASH_TABLE_SIZE) := by
  induction fuel with
  | zero =>
    intro ts n t k hk h
    rw [growTableSize] at h
    by_cases hc : n ≤ ts
    · simp only [if_pos hc] at h
      cases h
      exact ⟨⟨k, hk⟩, hc, le_refl _, fun hm => by omega⟩
    · simp only [if_neg hc] at h
      cases h
  | succ fuel ih =>
    intro ts n t k hk h
    rw [growTableSize] at h
    by_cases hc : n ≤ ts
    · simp only [if_pos hc] at h
      cases h
      exact ⟨⟨k, hk⟩, hc, le_refl _, fun hm => by omega⟩
    · simp only [if_neg hc] at h
      by_cases hm : MAX_HASH_TABLE_SIZE ≤ ts
      · simp only [if_pos hm] at h
        cases h
      · simp only [if_neg hm] at h
        obtain ⟨hpow, h1, h2, h3⟩ := ih (2 * ts) n t (k + 1) (by rw [hk]; ring) h
        refine ⟨hpow, h1, by omega, fun _ => ?_⟩
        apply h3
        have hlt : ts < MAX_HASH_TABLE_SIZE := Nat.lt_of_not_le hm
        have hkb : k < 19 := by
          by_contra hb
          push_neg at hb
          have : MAX_HASH_TABLE_SIZE ≤ 2 ^ k :=
            le_trans (by norm_num [MAX_HASH_TABLE_SIZE]) (Nat.pow_le_pow_right (by norm_num) hb)
          omega
        have hp : 2 ^ (k + 1) ≤ 2 ^ 19 := Nat.pow_le_pow_right (by norm_num) hkb
        have h219 : (2 : Nat) ^ 19 = 524288 := by norm_num
        have hts2 : 2 * ts = 2 ^ (k + 1) := by rw [hk]; ring
        unfold MAX_HASH_TABLE_SIZE
        omega

theorem growTableSize_none_of_big (fuel : Nat) :
    ∀ ts n k, ts = 2 ^ k → ts ≤ MAX_HASH_TABLE_SIZE → MAX_HASH_TABLE_SIZE < n →
      growTableSize fuel ts n = none := by
  induction fuel with
  | zero =>
    intro ts n k hk hle hbig
    rw [growTableSize]
    simp only [if_neg (by omega : ¬ n ≤ ts)]
  | succ fuel ih =>
    intro ts n k hk hle hbig
    rw [growTableSize]
    simp only [if_neg (by omega : ¬ n ≤ ts)]
    by_cases hm : MAX_HASH_TABLE_SIZE ≤ ts
    · simp only [if_pos hm]
    · simp only [if_neg hm]
      apply ih (2 * ts) n (k + 1) (by rw [hk]; ring)
      · have hlt : ts < MAX_HASH_TABLE_SIZE := Nat.lt_of_not_le hm
        have hkb : k < 19 := by
          by_contra hb
          push_neg at hb
          have : MAX_HASH_TABLE_SIZE ≤ 2 ^ k :=
            le_trans (by norm_num [MAX_HASH_TABLE_SIZE]) (Nat.pow_le_pow_right (by norm_num) hb)
          omega
        have h1 : 2 ^ (k + 1) ≤ 2 ^ 19 := Nat.pow_le_pow_right (by norm_num) hkb
        have : ts * 2 = 2 ^ (k + 1) := by rw [hk]; ring
        unfold MAX_HASH_TABLE_SIZE
        omega
      · exact hbig

theorem growTableSize_isSome (fuel : Nat) :
    ∀ ts n, n ≤ ts * 2 ^ fuel → n ≤ MAX_HASH_TABLE_SIZE →
      (growTableSize fuel ts n).isSome = true := by
  induction fuel with
  | zero =>
    intro ts n hfits hle
    rw [growTableSize]
    simp only [pow_zero, Nat.mul_one] at hfits
    simp [if_pos hfits]
  | succ fuel ih =>
    intro ts n hfits hle
    rw [growTableSize]
    by_cases hc : n ≤ ts
    · simp [if_pos hc]
    · simp only [if_neg hc]
      by_cases hm : MAX_HASH_TABLE_SIZE ≤ ts
      · omega
      · simp only [if_neg hm]
        apply ih
        · calc n ≤ ts * 2 ^ (fuel + 1) := hfits
          _ = 2 * ts * 2 ^ fuel := by ring
        · exact hle

theorem hashTableSize_bounds (n t : Nat) (h : hashTableSize n = some t) :
    (∃ m, t = 2 ^ m) ∧ MIN_HASH_TABLE_SIZE ≤ t ∧
    t ≤ 2 * MAX_HASH_TABLE_SIZE ∧ 2 * n ≤ t := by
  unfold hashTableSize at h
  cases hg : growTableSize 64 (MIN_HASH_TABLE_SIZE / 2) n with
  | none => rw [hg] at h; simp at h
  | some t0 =>
    rw [hg] at h
    simp only [Option.map_some'] at h
    obtain ⟨⟨m, hm⟩, h1, h2, h3⟩ :=
      growTableSize_pow 64 (MIN_HASH_TABLE_SIZE / 2) n t0 7
        (by norm_num [MIN_HASH_TABLE_SIZE]) hg
    have ht : t = 2 * t0 := (Option.some.injEq _ _).mp h.symm
    have hb : t0 ≤ MAX_HASH_TABLE_SIZE := h3 (by norm_num [MIN_HASH_TABLE_SIZE, MAX_HASH_TABLE_SIZE])
    refine ⟨⟨m + 1, by rw [ht, hm]; ring⟩, ?_, ?_, ?_⟩
    · have : (256 : Nat) / 2 ≤ t0 := by norm_num [MIN_HASH_TABLE_SIZE] at h2; omega
      norm_num [MIN_HASH_TABLE_SIZE]
      omega
    · omega
    · omega

theorem hashTableSize_none_iff (n : Nat) :
    hashTableSize n = none ↔ MAX_HASH_TABLE_SIZE < n := by
  constructor
  · intro h
    by_contra hb
    push_neg at hb
    have hs := growTableSize_isSome 64 (MIN_HASH_TABLE_SIZE / 2) n
      (le_trans hb (by norm_num [MIN_HASH_TABLE_SIZE, MAX_HASH_TABLE_SIZE])) hb
    unfold hashTableSize at h
    cases hg : growTableSize 64 (MIN_HASH_TABLE_SIZE / 2) n with
    | none => rw [hg] at hs; simp at hs
    | some t0 => rw [hg] at h; simp at h
  · intro h
    unfold hashTableSize
    rw [growTableSize_none_of_big 64 (MIN_HASH_TABLE_SIZE / 2) n 7
      (by norm_num [MIN_HASH_TABLE_SIZE]) (by norm_num [MIN_HASH_TABLE_SIZE, MAX_HASH_TABLE_SIZE]) h]
    rfl

theorem htInsertLoop_length :
    ∀ n i entries table t, htInsertLoop n i entries table = some t →
      t.length = table.length := by
  intro n
  induction n with
  | zero =>
    intro i entries table t h
    rw [htInsertLoop] at h
    cases h
    rfl
  | succ n ih =>
    intro i entries table t h
    rw [htInsertLoop] at h
    cases hf : findEmptySlot table.length ((entries.getD i default).hash0 % table.length) table with
    | none => rw [hf] at h; cases h
    | some slot =>
      rw [hf] at h
      have := ih (i + 1) entries (table.set slot (Int.ofNat i)) t h
      rw [this, List.length_set]

theorem buildHashTable_length (fc : Nat) (entries : List FileEntry) (t : List Int)
    (h : buildHashTable fc entries = some t) : hashTableSize fc = some t.length := by
  unfold buildHashTable at h
  cases hs : hashTableSize fc with
  | none => rw [hs] at h; cases h
  | some size =>
    rw [hs] at h
    have := htInsertLoop_length fc 0 entries (List.replicate size (-1)) t h
    rw [this, List.length_replicate]

/-- C6 counterexample: at 128 entries `buildHashTable` succeeds with a
table of 256 slots, which is not *strictly* greater than twice the entry
count (the load factor is exactly 50%), and at 262145 entries the chosen
size is 1048576, which exceeds the maximum table size 0x80000. -/
theorem C6_counterexample :
    (buildHashTable 128 entries128).map List.length = some 256 ∧
    ¬ (2 * 128 < 256) ∧
    hashTableSize 262145 = some 1048576 ∧
    ¬ (1048576 ≤ MAX_HASH_TABLE_SIZE) := by
  exact ⟨by decide, by decide, by decide, by decide⟩

/-- C6 (amended): for every entry count on which `buildHashTable`
succeeds, the produced table size is a power of two, at least the minimum
table size (256), at most *twice* the maximum table size (the size loop
can settle at 0x80000 and is then doubled once more), and at least —
not necessarily strictly greater than — twice the entry count, so the
load factor is at most 50%. -/
theorem C6_hash_index_size (fileCount : Nat) (entries : List FileEntry) (table : List Int)
    (h : buildHashTable fileCount entries = some table) :
    (∃ m, table.length = 2 ^ m) ∧ MIN_HASH_TABLE_SIZE ≤ table.length ∧
    table.length ≤ 2 * MAX_HASH_TABLE_SIZE ∧ 2 * fileCount ≤ table.length :=
  hashTableSize_bounds fileCount table.length (buildHashTable_length fileCount entries table h)

/-- Witness for C6 at a concrete input: the empty table gets 256 slots. -/
theorem C6_witness :
    buildHashTable 0 [] = some (List.replicate 256 (-1)) ∧
    MIN_HASH_TABLE_SIZE ≤ (List.replicate 256 (-1 : Int)).length := by
  have h : buildHashTable 0 [] = some (List.replicate 256 (-1)) := by decide
  exact ⟨h, (C6_hash_index_size 0 [] (List.replicate 256 (-1)) h).2.1⟩

/-! ## Lemmas for huge (above-capacity) archives -/

theorem padTake_replicate {α : Type} [Inhabited α] (x : α) :
    ∀ n, padTake n (List.replicate n x) = List.replicate n x := by
  intro n
  induction n with
  | zero => rfl
  | succ n ih =>
    rw [List.replicate_succ, padTake, ih]

theorem entriesCheck_replicate_zeroEntry :
    ∀ n, entriesCheck 72 40 (List.replicate n zeroEntry) = true := by
  intro n
  induction n with
  | zero => rfl
  | succ n ih =>
    rw [List.replicate_succ, entriesCheck]
    have h1 : ((zeroEntry.byteOffset + zeroEntry.fileSize) % U64) = 40 := by decide
    rw [h1, ih]
    decide

theorem readFileEntries_hugeInput :
    readFileEntries hugeInput.header hugeInput.diskEntries =
      some (List.replicate 524289 zeroEntry) := by
  unfold readFileEntries
  rw [show hugeInput.header.fileCount = 524289 from rfl]
  rw [show hugeInput.diskEntries = List.replicate 524289 zeroEntry from rfl]
  rw [padTake_replicate]
  rw [show hugeInput.header.fileEntryOffset = 72 from rfl]
  rw [show hugeInput.header.headerSize = 40 from rfl]
  simp only [entriesCheck_replicate_zeroEntry 524289, if_pos]

/-- C9 counterexample: an archive with 524289 entries (one more than the
maximum hash-table capacity) opens successfully — `Package::Package`
discards `buildHashTable`'s failure, leaving the instance reported valid,
with an empty hash index. -/
theorem C9_counterexample :
    (openPackage hugeInput true).valid = true ∧
    (openPackage hugeInput true).hashTable = [] ∧
    buildHashTable 524289 (List.replicate 524289 zeroEntry) = none := by
  have hbuild : buildHashTable 524289 (List.replicate 524289 zeroEntry) = none := by
    unfold buildHashTable
    rw [show hashTableSize 524289 = none from by decide]
  have hopen : openPackage hugeInput true =
      { header := hugeInput.header,
        fileEntries := List.replicate 524289 zeroEntry,
        filenames := readFilenames (List.replicate 524289 zeroEntry) true hugeInput.diskNames,
        hashTable := (buildHashTable hugeInput.header.fileCount
          (List.replicate 524289 zeroEntry)).getD [],
        readonly := true, dirty := false, valid := true } := by
    unfold openPackage
    rw [show hugeInput.streamOk = true from rfl]
    rw [show readHeaderOk hugeInput.header hugeInput.packageSize = true from by decide]
    rw [readFileEntries_hugeInput]
    simp only [Bool.not_true, Bool.false_eq_true, if_false, Bool.true_or]
  refine ⟨by rw [hopen], ?_, hbuild⟩
  rw [hopen]
  show (buildHashTable hugeInput.header.fileCount (List.replicate 524289 zeroEntry)).getD [] = []
  rw [show hugeInput.header.fileCount = 524289 from rfl, hbuild]
  rfl

/-- C9 (amended): `buildHashTable` fails deterministically exactly when
the entry count exceeds the maximum table capacity, but the constructor
ignores the failure: `valid()` depends only on the stream, the header
checks and the entry-table checks, so such an instance is still reported
valid (with an empty, never-built hash index). -/
theorem C9_capacity_failure :
    (∀ n, MAX_HASH_TABLE_SIZE < n → hashTableSize n = none) ∧
    (∀ n es, MAX_HASH_TABLE_SIZE < n → buildHashTable n es = none) ∧
    (∀ inp ro, (openPackage inp ro).valid =
      (inp.streamOk && readHeaderOk inp.header inp.packageSize &&
       (readFileEntries inp.header inp.diskEntries).isSome)) := by
  refine ⟨fun n h => (hashTableSize_none_iff n).mpr h, ?_, ?_⟩
  · intro n es h
    unfold buildHashTable
    rw [(hashTableSize_none_iff n).mpr h]
  · intro inp ro
    unfold openPackage
    by_cases hs : inp.streamOk
    · rw [hs]
      by_cases hh : readHeaderOk inp.header inp.packageSize
      · rw [hh]
        simp only [Bool.not_true, Bool.false_eq_true, if_false, Bool.true_and]
        cases hr : readFileEntries inp.header inp.diskEntries with
        | none => simp [invalidPackage]
        | some es => simp
      · simp only [Bool.not_eq_true] at hh
        rw [hh]
        simp [invalidPackage]
    · simp only [Bool.not_eq_true] at hs
      rw [hs]
      simp [invalidPackage]

/-- Witness for C9 at a concrete count just above capacity. -/
theorem C9_witness : hashTableSize 524289 = none :=
  C9_capacity_failure.1 524289 (by decide)

/-! ## The probe chain of getFileIndex -/

theorem probePosition_shift (len start : Nat) :
    ∀ j, probePosition len (probeAdvance len start) j = probePosition len start (j + 1) := by
  intro j
  induction j with
  | zero => rfl
  | succ j ih =>
    show probeAdvance len (probePosition len (probeAdvance len start) j) = _
    rw [ih]
    rfl

theorem probeLookup_first_match (entries : List FileEntry) (table : List Int) (h0 h1 h2 : Nat) :
    ∀ j fuel start fi e,
      j < fuel →
      (∀ k, k < j → ∃ fk ek, table.get? (probePosition table.length start k) = some fk ∧
         0 ≤ fk ∧ entries.get? fk.toNat = some ek ∧ hashesMatch ek h0 h1 h2 = false) →
      table.get? (probePosition table.length start j) = some fi →
      0 ≤ fi →
      entries.get? fi.toNat = some e →
      hashesMatch e h0 h1 h2 = true →
      probeLookup entries table h0 h1 h2 fuel start =
        some (if isDeleted e then -1 else fi) := by
  intro j
  induction j with
  | zero =>
    intro fuel start fi e hfuel hpre hslot hnn hent hm
    cases fuel with
    | zero => omega
    | succ fuel =>
      rw [probeLookup]
      rw [probePosition] at hslot
      rw [hslot]
      dsimp only
      rw [if_neg (by omega : ¬ fi < 0)]
      rw [hent]
      dsimp only
      rw [if_pos hm]
      by_cases hd : isDeleted e
      · rw [if_pos hd, if_pos hd]
      · rw [if_neg hd, if_neg hd]
  | succ j ih =>
    intro fuel start fi e hfuel hpre hslot hnn hent hm
    cases fuel with
    | zero => omega
    | succ fuel =>
      rw [probeLookup]
      obtain ⟨f0, e0, hs0, hn0, he0, hm0⟩ := hpre 0 (Nat.succ_pos j)
      rw [probePosition] at hs0
      rw [hs0]
      dsimp only
      rw [if_neg (by omega : ¬ f0 < 0)]
      rw [he0]
      dsimp only
      rw [if_neg (by rw [hm0]; exact Bool.false_ne_true)]
      apply ih fuel (probeAdvance table.length start) fi e (by omega)
      · intro k hk
        obtain ⟨fk, ek, a1, a2, a3, a4⟩ := hpre (k + 1) (by omega)
        exact ⟨fk, ek, by rw [probePosition_shift]; exact a1, a2, a3, a4⟩
      · rw [probePosition_shift]
        exact hslot
      · exact hnn
      · exact hent
      · exact hm

/-- C3: `getFileIndex` walks the linear probe chain from
`hash0 mod tableSize`; when the first slot holding an entry that matches
all three hashes is reached (every earlier probed slot being occupied by a
non-matching entry), the result is the not-found sentinel `-1` if that
entry is tombstoned — without probing any further slot — and the entry's
index if it is live. -/
theorem C3_tombstoned_match_stops_probe (pkg : Package) (nm : String) (j : Nat) (fi : Int)
    (e : FileEntry)
    (hj : j < pkg.hashTable.length)
    (hpre : ∀ k, k < j → ∃ fk ek,
      pkg.hashTable.get? (probePosition pkg.hashTable.length
        (stringHash nm HASH_SEED0 % pkg.hashTable.length) k) = some fk ∧
      0 ≤ fk ∧ pkg.fileEntries.get? fk.toNat = some ek ∧
      hashesMatch ek (stringHash nm HASH_SEED0) (stringHash nm HASH_SEED1)
        (stringHash nm HASH_SEED2) = false)
    (hslot : pkg.hashTable.get? (probePosition pkg.hashTable.length
      (stringHash nm HASH_SEED0 % pkg.hashTable.length) j) = some fi)
    (hnn : 0 ≤ fi)
    (hent : pkg.fileEntries.get? fi.toNat = some e)
    (hm : hashesMatch e (stringHash nm HASH_SEED0) (stringHash nm HASH_SEED1)
      (stringHash nm HASH_SEED2) = true) :
    getFileIndex pkg nm = some (if isDeleted e then -1 else fi) := by
  unfold getFileIndex
  rw [if_neg (by omega : ¬ pkg.hashTable.length = 0)]
  exact probeLookup_first_match pkg.fileEntries pkg.hashTable _ _ _ j pkg.hashTable.length _
    fi e hj hpre hslot hnn hent hm

/-- Witness for C3: a one-slot table pointing at a tombstoned entry that
matches the query "a" returns the not-found sentinel. -/
theorem C3_witness : getFileIndex probePkg "a" = some (-1) := by
  have h := C3_tombstoned_match_stops_probe probePkg "a" 0 0
    { hash0 := 97, hash1 := 97, hash2 := 97, flag := FILE_FLAG_DELETED,
      byteOffset := 40, fileSize := 0 }
    (by decide) (fun k hk => absurd hk (by omega)) (by decide) (by decide) (by decide) (by decide)
  rw [if_pos (by decide)] at h
  exact h

/-! ## Successful and failed opens -/

theorem openPackage_eq_of_success (inp : OpenInput) (ro : Bool) (es : List FileEntry)
    (hs : inp.streamOk = true)
    (hh : readHeaderOk inp.header inp.packageSize = true)
    (hr : readFileEntries inp.header inp.diskEntries = some es) :
    openPackage inp ro =
      { header := inp.header,
        fileEntries := es,
        filenames := readFilenames es (ro || decide (inp.header.version ≠ CURRENT_VERSION))
          inp.diskNames,
        hashTable := (buildHashTable inp.header.fileCount es).getD [],
        readonly := ro || decide (inp.header.version ≠ CURRENT_VERSION),
        dirty := false, valid := true } := by
  unfold openPackage
  rw [hs, hh, hr]
  simp only [Bool.not_true, Bool.false_eq_true, if_false]

theorem openPackage_not_valid (inp : OpenInput) (ro : Bool)
    (h : (openPackage inp ro).valid = false) :
    (openPackage inp ro).hashTable = [] ∧ (openPackage inp ro).filenames = [] := by
  by_cases hs : inp.streamOk = true
  · by_cases hh : readHeaderOk inp.header inp.packageSize = true
    · cases hr : readFileEntries inp.header inp.diskEntries with
      | none =>
        unfold openPackage
        rw [hs, hh, hr]
        simp only [Bool.not_true, Bool.false_eq_true, if_false]
        exact ⟨rfl, rfl⟩
      | some es =>
        rw [openPackage_eq_of_success inp ro es hs hh hr] at h
        cases h
    · unfold openPackage
      rw [hs]
      rw [Bool.not_eq_true] at hh
      rw [hh]
      simp only [Bool.not_true, Bool.false_eq_true, if_false, Bool.not_false, if_true]
      exact ⟨rfl, rfl⟩
  · unfold openPackage
    rw [Bool.not_eq_true] at hs
    rw [hs]
    simp only [Bool.not_false, if_true]
    exact ⟨rfl, rfl⟩

/-- C10: the lookup is well-defined only when the hash table is nonempty.
If the open succeeded and `buildHashTable` succeeded, the table the
instance carries is the built one, whose size is at least the minimum
table size (in particular nonzero, so `hash0 % size` is well-defined).
For an instance whose open failed, the hash table is empty — the modulo
divisor is zero — and every lookup through it (hence `hasFile`,
`openFile`, `addFile`, `removeFile`) hits the modelled undefined
behaviour. -/
theorem C10_lookup_precondition :
    (∀ inp ro t, (openPackage inp ro).valid = true →
       buildHashTable inp.header.fileCount (openPackage inp ro).fileEntries = some t →
       (openPackage inp ro).hashTable = t ∧
       MIN_HASH_TABLE_SIZE ≤ (openPackage inp ro).hashTable.length) ∧
    (∀ inp ro, (openPackage inp ro).valid = false →
       (openPackage inp ro).hashTable = [] ∧
       ∀ nm, getFileIndex (openPackage inp ro) nm = none) := by
  constructor
  · intro inp ro t hvalid hbuild
    by_cases hs : inp.streamOk = true
    · by_cases hh : readHeaderOk inp.header inp.packageSize = true
      · cases hr : readFileEntries inp.header inp.diskEntries with
        | none =>
          unfold openPackage at hvalid
          rw [hs, hh, hr] at hvalid
          simp only [Bool.not_true, Bool.false_eq_true, if_false] at hvalid
          cases hvalid
        | some es =>
          have heq := openPackage_eq_of_success inp ro es hs hh hr
          rw [heq] at hbuild ⊢
          simp only at hbuild ⊢
          rw [hbuild]
          refine ⟨rfl, ?_⟩
          have := hashTableSize_bounds inp.header.fileCount t.length
            (buildHashTable_length inp.header.fileCount es t hbuild)
          simpa using this.2.1
      · unfold openPackage at hvalid
        rw [hs] at hvalid
        rw [Bool.not_eq_true] at hh
        rw [hh] at hvalid
        simp only [Bool.not_true, Bool.false_eq_true, if_false, Bool.not_false, if_true] at hvalid
        cases hvalid
    · unfold openPackage at hvalid
      rw [Bool.not_eq_true] at hs
      rw [hs] at hvalid
      simp only [Bool.not_false, if_true] at hvalid
      cases hvalid
  · intro inp ro hvalid
    obtain ⟨h1, _⟩ := openPackage_not_valid inp ro hvalid
    refine ⟨h1, fun nm => ?_⟩
    unfold getFileIndex
    rw [h1]
    rfl

/-- Witness for C10 at concrete inputs: the empty archive opens with a
256-slot table, and an instance whose stream failed to open has an empty
table and an undefined lookup. -/
theorem C10_witness :
    (openPackage emptyInput false).hashTable = List.replicate 256 (-1) ∧
    MIN_HASH_TABLE_SIZE ≤ (openPackage emptyInput false).hashTable.length ∧
    (openPackage failedInput false).hashTable = [] ∧
    getFileIndex (openPackage failedInput false) "a" = none := by
  have h1 := (C10_lookup_precondition.1 emptyInput false (List.replicate 256 (-1))
    (by decide) (by decide))
  have h2 := C10_lookup_precondition.2 failedInput false (by decide)
  exact ⟨h1.1, h1.2, h2.1, h2.2 "a"⟩

/-! ## Lookup success yields a live matching entry -/

theorem probeLookup_nonneg_live (entries : List FileEntry) (table : List Int)
    (h0 h1 h2 : Nat) :
    ∀ fuel start fi, probeLookup entries table h0 h1 h2 fuel start = some fi → 0 ≤ fi →
      ∃ e, entries.get? fi.toNat = some e ∧ hashesMatch e h0 h1 h2 = true ∧
        isDeleted e = false := by
  intro fuel
  induction fuel with
  | zero =>
    intro start fi h hnn
    rw [probeLookup] at h
    cases h
  | succ fuel ih =>
    intro start fi h hnn
    rw [probeLookup] at h
    cases hslot : table.get? start with
    | none => rw [hslot] at h; cases h
    | some v =>
      rw [hslot] at h
      dsimp only at h
      by_cases hv : v < 0
      · rw [if_pos hv] at h
        cases h
        omega
      · rw [if_neg hv] at h
        cases hent : entries.get? v.toNat with
        | none => rw [hent] at h; cases h
        | some e =>
          rw [hent] at h
          dsimp only at h
          by_cases hm : hashesMatch e h0 h1 h2 = true
          · rw [if_pos hm] at h
            by_cases hd : isDeleted e = true
            · rw [if_pos hd] at h
              cases h
              omega
            · rw [if_neg hd] at h
              cases h
              exact ⟨e, hent, hm, by rw [Bool.not_eq_true] at hd; exact hd⟩
          · rw [if_neg hm] at h
            exact ih (probeAdvance table.length start) fi h hnn

theorem getFileIndex_nonneg_live (pkg : Package) (nm : String) (fi : Int)
    (h : getFileIndex pkg nm = some fi) (hnn : 0 ≤ fi) :
    ∃ e, pkg.fileEntries.get? fi.toNat = some e ∧
      hashesMatch e (stringHash nm HASH_SEED0) (stringHash nm HASH_SEED1)
        (stringHash nm HASH_SEED2) = true ∧
      isDeleted e = false := by
  unfold getFileIndex at h
  by_cases hlen : pkg.hashTable.length = 0
  · rw [if_pos hlen] at h
    cases h
  · rw [if_neg hlen] at h
    exact probeLookup_nonneg_live pkg.fileEntries pkg.hashTable _ _ _ _ _ fi h hnn

/-- Setting the tombstone bit makes `isDeleted` true. -/
theorem isDeleted_after_lor (x : Nat) : (x ||| FILE_FLAG_DELETED) &&& FILE_FLAG_DELETED ≠ 0 := by
  intro h
  have ht : ((x ||| FILE_FLAG_DELETED) &&& FILE_FLAG_DELETED).testBit 0 = true := by
    rw [Nat.testBit_land, Nat.testBit_lor]
    have h1 : Nat.testBit FILE_FLAG_DELETED 0 = true := by decide
    rw [h1]
    simp
  rw [h] at ht
  simp [Nat.zero_testBit] at ht

theorem modifyAt_getD (f : FileEntry → FileEntry) :
    ∀ i es, i < List.length es →
      (modifyAt f i es).getD i default = f (es.getD i default) := by
  intro i
  induction i with
  | zero =>
    intro es h
    cases es with
    | nil => simp at h
    | cons e es => rfl
  | succ i ih =>
    intro es h
    cases es with
    | nil => simp at h
    | cons e es =>
      show (modifyAt f (i + 1) (e :: es)).getD (i + 1) default = _
      rw [modifyAt]
      show (modifyAt f i es).getD i default = _
      exact ih es (by simpa using h)

/-- C2 counterexample: on a fresh empty package, `addFile("a")` succeeds
and leaves a live entry named "a" in the entry table; but since entries
added before a flush are never inserted into the hash index, a second
`addFile("a")` with the REPLACE bit clear returns true (the claim says
false) and inserts a duplicate live entry with the same name. -/
theorem C2_counterexample :
    (addFile (openPackage emptyInput false) true 5 "a" 0).map
      (fun r => (r.1, r.2.fileEntries.map (fun e => (e.hash0, isDeleted e)), r.2.filenames)) =
      some (true, [(97, false)], ["a"]) ∧
    ((addFile (openPackage emptyInput false) true 5 "a" 0).bind
      (fun r => addFile r.2 true 5 "a" 0)).map
      (fun r => (r.1, r.2.fileEntries.map (fun e => (e.hash0, isDeleted e)), r.2.filenames)) =
      some (true, [(97, false), (97, false)], ["a", "a"]) :=
  ⟨by decide, by decide⟩

/-- C2 (amended): for every package state in which the hash-index lookup
resolves the name to a live entry (which covers entries present in the
index — i.e. present at the last open or flush — but not entries added by
a preceding `addFile` with no intervening flush), `addFile` with the
REPLACE bit clear returns false and changes nothing, and with the REPLACE
bit set it first tombstones the resolved entry (via `removeFile`) and then
inserts the new one into the tombstoned state. -/
theorem C2_duplicate_handling (pkg : Package) (nm : String) (flag sz : Nat) (fi : Int)
    (hro : pkg.readonly = false)
    (hfi : getFileIndex pkg nm = some fi)
    (hnn : 0 ≤ fi) :
    (flag &&& FLAG_REPLACE = 0 → addFile pkg true sz nm flag = some (false, pkg)) ∧
    (flag &&& FLAG_REPLACE ≠ 0 →
      removeFile pkg nm = some (true, tombstoneAt pkg fi.toNat) ∧
      isDeleted ((tombstoneAt pkg fi.toNat).fileEntries.getD fi.toNat default) = true ∧
      addFile pkg true sz nm flag = some (true, addFilePlace (tombstoneAt pkg fi.toNat) sz nm)) := by
  have hrm : removeFile pkg nm = some (true, tombstoneAt pkg fi.toNat) := by
    unfold removeFile
    rw [hro, hfi]
    simp only [Bool.false_eq_true, if_false]
    rw [if_neg (by omega : ¬ fi < 0)]
  constructor
  · intro hnorep
    unfold addFile
    rw [hro, hfi]
    simp only [Bool.false_eq_true, if_false, Bool.not_true]
    rw [if_pos hnn, if_pos hnorep]
  · intro hrep
    refine ⟨hrm, ?_, ?_⟩
    · obtain ⟨e, hget, _, _⟩ := getFileIndex_nonneg_live pkg nm fi hfi hnn
      have hlt : fi.toNat < pkg.fileEntries.length := by
        rcases List.get?_eq_some.1 hget with ⟨h, _⟩
        exact h
      show isDeleted ((modifyAt _ fi.toNat pkg.fileEntries).getD fi.toNat default) = true
      rw [modifyAt_getD _ fi.toNat pkg.fileEntries hlt]
      unfold isDeleted
      dsimp only
      rw [bne_iff_ne]
      exact isDeleted_after_lor _
    · unfold addFile
      rw [hro, hfi]
      simp only [Bool.false_eq_true, if_false, Bool.not_true]
      rw [if_pos hnn, if_neg hrep, hrm]

/-- Witness for C2 at a concrete state: on a freshly opened two-entry
archive, adding "a" again without the replace bit fails and changes
nothing. -/
theorem C2_witness :
    addFile (openPackage twoEntryInput false) true 7 "a" 0 =
      some (false, openPackage twoEntryInput false) := by
  have h := C2_duplicate_handling (openPackage twoEntryInput false) "a" 0 7 0
    (by decide) (by decide) (by decide)
  exact h.1 (by decide)

/-! ## List-level lemmas for the table operations -/

theorem padTake_length {α : Type} [Inhabited α] :
    ∀ (n : Nat) (l : List α), (padTake n l).length = n := by
  intro n
  induction n with
  | zero => intro l; rfl
  | succ n ih =>
    intro l
    cases l with
    | nil => show (default :: padTake n ([] : List α)).length = n + 1; rw [List.length_cons, ih]
    | cons x l => show (x :: padTake n l).length = n + 1; rw [List.length_cons, ih]

theorem insertAt_length {α : Type} (a : α) :
    ∀ n l, n ≤ List.length l → (insertAt n a l).length = l.length + 1 := by
  intro n
  induction n with
  | zero => intro l _; rfl
  | succ n ih =>
    intro l h
    cases l with
    | nil => simp at h
    | cons x l =>
      show (x :: insertAt n a l).length = (x :: l).length + 1
      rw [List.length_cons, ih l (by simpa using h), List.length_cons]

theorem modifyAt_length (f : FileEntry → FileEntry) :
    ∀ n es, (modifyAt f n es).length = es.length := by
  intro n
  induction n with
  | zero =>
    intro es
    cases es with
    | nil => rfl
    | cons e es => rfl
  | succ n ih =>
    intro es
    cases es with
    | nil => rfl
    | cons e es =>
      show (e :: modifyAt f n es).length = (e :: es).length
      rw [List.length_cons, ih, List.length_cons]

theorem findPos_lt_length (s : Nat) :
    ∀ es lastEnd i off, findPos s lastEnd es = some (i, off) → i < List.length es := by
  intro es
  induction es with
  | nil => intro lastEnd i off h; rw [findPos] at h; cases h
  | cons e es ih =>
    intro lastEnd i off h
    rw [findPos] at h
    by_cases hd : isDeleted e = true
    · rw [if_pos hd] at h
      cases hrec : findPos s lastEnd es with
      | none => rw [hrec] at h; cases h
      | some p =>
        rw [hrec] at h
        cases h
        have := ih lastEnd p.1 p.2 (by rw [hrec])
        simpa using Nat.succ_lt_succ this
    · rw [if_neg hd] at h
      by_cases hfit : s ≤ sub64 e.byteOffset lastEnd
      · rw [if_pos hfit] at h
        cases h
        simp
      · rw [if_neg hfit] at h
        cases hrec : findPos s ((e.byteOffset + e.fileSize) % U64) es with
        | none => rw [hrec] at h; cases h
        | some p =>
          rw [hrec] at h
          cases h
          have := ih _ p.1 p.2 (by rw [hrec])
          simpa using Nat.succ_lt_succ this

theorem flushCompact_fst :
    ∀ es ns, (flushCompact es ns).1 = es.filter (fun e => !isDeleted e) := by
  intro es
  induction es with
  | nil => intro ns; rfl
  | cons e es ih =>
    intro ns
    cases ns with
    | nil =>
      rw [flushCompact]
      by_cases hd : isDeleted e = true
      · rw [if_pos hd, ih, List.filter_cons_of_neg (by simp [hd])]
      · rw [if_neg hd]
        rw [List.filter_cons_of_pos (by simp [Bool.not_eq_true] at hd; simp [hd])]
        show e :: (flushCompact es []).1 = _
        rw [ih]
    | cons n ns =>
      rw [flushCompact]
      by_cases hd : isDeleted e = true
      · rw [if_pos hd, ih, List.filter_cons_of_neg (by simp [hd])]
      · rw [if_neg hd]
        rw [List.filter_cons_of_pos (by simp [Bool.not_eq_true] at hd; simp [hd])]
        show e :: (flushCompact es ns).1 = _
        rw [ih]

theorem flushCompact_lengths :
    ∀ es ns, es.length = ns.length →
      (flushCompact es ns).1.length = (flushCompact es ns).2.length := by
  intro es
  induction es with
  | nil =>
    intro ns h
    cases ns with
    | nil => rfl
    | cons n ns => simp at h
  | cons e es ih =>
    intro ns h
    cases ns with
    | nil => simp at h
    | cons n ns =>
      rw [flushCompact]
      by_cases hd : isDeleted e = true
      · rw [if_pos hd]
        exact ih ns (by simpa using h)
      · rw [if_neg hd]
        show ((e :: (flushCompact es ns).1).length = (n :: (flushCompact es ns).2).length)
        rw [List.length_cons, List.length_cons, ih ns (by simpa using h)]

theorem flushCompact_zip :
    ∀ es ns, es.length = ns.length →
      (flushCompact es ns).1.zip (flushCompact es ns).2 =
        (es.zip ns).filter (fun q => !isDeleted q.1) := by
  intro es
  induction es with
  | nil =>
    intro ns h
    cases ns with
    | nil => rfl
    | cons n ns => simp at h
  | cons e es ih =>
    intro ns h
    cases ns with
    | nil => simp at h
    | cons n ns =>
      rw [flushCompact]
      by_cases hd : isDeleted e = true
      · rw [if_pos hd, ih ns (by simpa using h)]
        rw [show (e :: es).zip (n :: ns) = (e, n) :: es.zip ns from rfl]
        rw [List.filter_cons_of_neg (by simp [hd])]
      · rw [if_neg hd]
        show ((e :: (flushCompact es ns).1).zip (n :: (flushCompact es ns).2)) = _
        rw [show (e :: (flushCompact es ns).1).zip (n :: (flushCompact es ns).2) =
          (e, n) :: ((flushCompact es ns).1.zip (flushCompact es ns).2) from rfl]
        rw [ih ns (by simpa using h)]
        rw [show (e :: es).zip (n :: ns) = (e, n) :: es.zip ns from rfl]
        rw [List.filter_cons_of_pos (by simp [Bool.not_eq_true] at hd; simp [hd])]

theorem defragPack_fst_length :
    ∀ es nextPos, (defragPack nextPos es).1.length = es.length := by
  intro es
  induction es with
  | nil => intro nextPos; rfl
  | cons e es ih =>
    intro nextPos
    show (_ :: (defragPack ((nextPos + e.fileSize) % U64) es).1).length = _
    rw [List.length_cons, ih, List.length_cons]

theorem insertFile_lengths (hdr : PackageHeader) (es : List FileEntry) (ns : List String)
    (table : List Int) (entry : FileEntry) (nm : String)
    (h : ns.length = es.length) :
    (insertFile hdr es ns table entry nm).filenames.length =
      (insertFile hdr es ns table entry nm).fileEntries.length := by
  unfold insertFile
  cases hfp : findPos entry.fileSize hdr.headerSize es with
  | some p =>
    cases p with
    | mk i off =>
      dsimp only
      have hi : i < es.length := findPos_lt_length entry.fileSize es hdr.headerSize i off hfp
      rw [insertAt_length _ i es (le_of_lt hi), insertAt_length _ i ns (by omega)]
      omega
  | none =>
    dsimp only
    rw [List.length_append, List.length_append, h]
    rfl

theorem addFilePlace_lengths (pkg : Package) (sz : Nat) (nm : String)
    (h : pkg.filenames.length = pkg.fileEntries.length) :
    (addFilePlace pkg sz nm).filenames.length =
      (addFilePlace pkg sz nm).fileEntries.length := by
  unfold addFilePlace
  exact insertFile_lengths pkg.header pkg.fileEntries pkg.filenames pkg.hashTable _ nm h

theorem tombstoneAt_lengths (pkg : Package) (i : Nat)
    (h : pkg.filenames.length = pkg.fileEntries.length) :
    (tombstoneAt pkg i).filenames.length = (tombstoneAt pkg i).fileEntries.length := by
  unfold tombstoneAt
  dsimp only
  rw [modifyAt_length]
  exact h

theorem flush_lengths (pkg : Package)
    (h : pkg.filenames.length = pkg.fileEntries.length) :
    (flush pkg).filenames.length = (flush pkg).fileEntries.length := by
  unfold flush
  by_cases hb : (pkg.readonly || !pkg.dirty) = true
  · rw [if_pos hb]; exact h
  · rw [if_neg hb]
    dsimp only
    exact (flushCompact_lengths pkg.fileEntries pkg.filenames h.symm).symm

theorem defrag_lengths (pkg : Package) (b : Bool)
    (h : pkg.filenames.length = pkg.fileEntries.length) :
    (defrag pkg b).2.filenames.length = (defrag pkg b).2.fileEntries.length := by
  unfold defrag
  by_cases hc : (pkg.readonly || pkg.dirty) = true
  · rw [if_pos hc]; exact h
  · rw [if_neg hc]
    dsimp only
    have hmid : pkg.filenames.length =
        (defragPack pkg.header.headerSize pkg.fileEntries).1.length := by
      rw [defragPack_fst_length]; exact h
    by_cases hr : (!b) = true
    · rw [if_pos hr]
      exact flush_lengths _ hmid
    · rw [if_neg hr]
      exact flush_lengths _ hmid

theorem addFile_lengths (pkg : Package) (ok : Bool) (sz : Nat) (nm : String) (fl : Nat)
    (r : Bool × Package)
    (h : pkg.filenames.length = pkg.fileEntries.length)
    (hr : addFile pkg ok sz nm fl = some r) :
    r.2.filenames.length = r.2.fileEntries.length := by
  unfold addFile at hr
  by_cases hro : pkg.readonly = true
  · rw [if_pos hro] at hr
    cases hr
    exact h
  · rw [if_neg hro] at hr
    by_cases hok : (!ok) = true
    · rw [if_pos hok] at hr
      cases hr
      exact h
    · rw [if_neg hok] at hr
      cases hfi : getFileIndex pkg nm with
      | none => rw [hfi] at hr; cases hr
      | some fi =>
        rw [hfi] at hr
        dsimp only at hr
        by_cases hnn : (0 : Int) ≤ fi
        · rw [if_pos hnn] at hr
          by_cases hfl : fl &&& FLAG_REPLACE = 0
          · rw [if_pos hfl] at hr
            cases hr
            exact h
          · rw [if_neg hfl] at hr
            cases hrm : removeFile pkg nm with
            | none => rw [hrm] at hr; cases hr
            | some q =>
              rw [hrm] at hr
              cases q with
              | mk qb qp =>
                dsimp only at hr
                cases hr
                have hq : qp.filenames.length = qp.fileEntries.length := by
                  unfold removeFile at hrm
                  rw [if_neg hro] at hrm
                  cases hfi2 : getFileIndex pkg nm with
                  | none => rw [hfi2] at hrm; cases hrm
                  | some fi2 =>
                    rw [hfi2] at hrm
                    dsimp only at hrm
                    by_cases hneg : fi2 < 0
                    · rw [if_pos hneg] at hrm
                      cases hrm
                      exact h
                    · rw [if_neg hneg] at hrm
                      cases hrm
                      exact tombstoneAt_lengths pkg fi2.toNat h
                exact addFilePlace_lengths qp sz nm hq
        · rw [if_neg hnn] at hr
          cases hr
          exact addFilePlace_lengths pkg sz nm h

theorem removeFile_lengths (pkg : Package) (nm : String) (r : Bool × Package)
    (h : pkg.filenames.length = pkg.fileEntries.length)
    (hr : removeFile pkg nm = some r) :
    r.2.filenames.length = r.2.fileEntries.length := by
  unfold removeFile at hr
  by_cases hro : pkg.readonly = true
  · rw [if_pos hro] at hr
    cases hr
    exact h
  · rw [if_neg hro] at hr
    cases hfi : getFileIndex pkg nm with
    | none => rw [hfi] at hr; cases hr
    | some fi =>
      rw [hfi] at hr
      dsimp only at hr
      by_cases hneg : fi < 0
      · rw [if_pos hneg] at hr
        cases hr
        exact h
      · rw [if_neg hneg] at hr
        cases hr
        exact tombstoneAt_lengths pkg fi.toNat h

/-- C8 counterexample: a read-only open of a non-empty archive succeeds
with one entry but an empty name table — `readFilenames` skips loading
entirely for a read-only package, so `len(names) ≠ len(entries)` at an
externally observable point. -/
theorem C8_counterexample :
    (openPackage oneEntryInput true).valid = true ∧
    (openPackage oneEntryInput true).fileEntries.length = 1 ∧
    (openPackage oneEntryInput true).filenames.length = 0 :=
  ⟨by decide, by decide, by decide⟩

/-- C8 (amended): the name table and entry table have the same length,
with `names[i]` paired with `entries[i]`, at every externally observable
point of a package opened *writable*; a read-only open leaves the name
table empty (so the lengths differ for a non-empty read-only archive).
The pairing is preserved in lockstep: `addFile`, `removeFile`, `flush`
and `defrag` keep the lengths equal, and a flushing `flush` keeps exactly
the live `(entry, name)` pairs. -/
theorem C8_name_table_alignment :
    (∀ inp ro, (openPackage inp ro).valid = true → (openPackage inp ro).readonly = false →
       (openPackage inp ro).filenames.length = (openPackage inp ro).fileEntries.length) ∧
    (∀ inp ro, (openPackage inp ro).valid = true → (openPackage inp ro).readonly = true →
       (openPackage inp ro).filenames = []) ∧
    (∀ pkg ok sz nm fl r, pkg.filenames.length = pkg.fileEntries.length →
       addFile pkg ok sz nm fl = some r →
       r.2.filenames.length = r.2.fileEntries.length) ∧
    (∀ pkg nm r, pkg.filenames.length = pkg.fileEntries.length →
       removeFile pkg nm = some r →
       r.2.filenames.length = r.2.fileEntries.length) ∧
    (∀ pkg, pkg.filenames.length = pkg.fileEntries.length →
       (flush pkg).filenames.length = (flush pkg).fileEntries.length) ∧
    (∀ pkg, pkg.filenames.length = pkg.fileEntries.length →
       pkg.readonly = false → pkg.dirty = true →
       (flush pkg).fileEntries.zip (flush pkg).filenames =
         (pkg.fileEntries.zip pkg.filenames).filter (fun q => !isDeleted q.1)) ∧
    (∀ pkg b, pkg.filenames.length = pkg.fileEntries.length →
       (defrag pkg b).2.filenames.length = (defrag pkg b).2.fileEntries.length) := by
  refine ⟨?_, ?_, addFile_lengths, removeFile_lengths, flush_lengths, ?_, defrag_lengths⟩
  · intro inp ro hvalid hro
    by_cases hs : inp.streamOk = true
    · by_cases hh : readHeaderOk inp.header inp.packageSize = true
      · cases hr : readFileEntries inp.header inp.diskEntries with
        | none =>
          unfold openPackage at hvalid
          rw [hs, hh, hr] at hvalid
          simp only [Bool.not_true, Bool.false_eq_true, if_false] at hvalid
          cases hvalid
        | some es =>
          have heq := openPackage_eq_of_success inp ro es hs hh hr
          rw [heq] at hro ⊢
          dsimp only at hro ⊢
          rw [hro]
          unfold readFilenames
          by_cases he : es.isEmpty = true
          · rw [he]
            simp only [Bool.true_or, if_true]
            rw [List.isEmpty_iff] at he
            rw [he]
            rfl
          · rw [Bool.not_eq_true] at he
            rw [he]
            simp only [Bool.false_or, Bool.false_eq_true, if_false]
            exact padTake_length es.length inp.diskNames
      · unfold openPackage at hvalid
        rw [hs] at hvalid
        rw [Bool.not_eq_true] at hh
        rw [hh] at hvalid
        simp only [Bool.not_true, Bool.false_eq_true, if_false, Bool.not_false, if_true] at hvalid
        cases hvalid
    · unfold openPackage at hvalid
      rw [Bool.not_eq_true] at hs
      rw [hs] at hvalid
      simp only [Bool.not_false, if_true] at hvalid
      cases hvalid
  · intro inp ro hvalid hro
    by_cases hs : inp.streamOk = true
    · by_cases hh : readHeaderOk inp.header inp.packageSize = true
      · cases hr : readFileEntries inp.header inp.diskEntries with
        | none =>
          unfold openPackage at hvalid
          rw [hs, hh, hr] at hvalid
          simp only [Bool.not_true, Bool.false_eq_true, if_false] at hvalid
          cases hvalid
        | some es =>
          have heq := openPackage_eq_of_success inp ro es hs hh hr
          rw [heq] at hro ⊢
          dsimp only at hro ⊢
          rw [hro]
          unfold readFilenames
          simp
      · unfold openPackage at hvalid
        rw [hs] at hvalid
        rw [Bool.not_eq_true] at hh
        rw [hh] at hvalid
        simp only [Bool.not_true, Bool.false_eq_true, if_false, Bool.not_false, if_true] at hvalid
        cases hvalid
    · unfold openPackage at hvalid
      rw [Bool.not_eq_true] at hs
      rw [hs] at hvalid
      simp only [Bool.not_false, if_true] at hvalid
      cases hvalid
  · intro pkg h hro hdirty
    unfold flush
    rw [hro, hdirty]
    simp only [Bool.not_true, Bool.or_false, Bool.false_eq_true, if_false]
    exact flushCompact_zip pkg.fileEntries pkg.filenames h.symm

/-- Witness for C8 at a concrete state: a writable open of a two-entry
archive loads a name table of matching length. -/
theorem C8_witness :
    (openPackage twoEntryInput false).filenames.length =
      (openPackage twoEntryInput false).fileEntries.length :=
  C8_name_table_alignment.1 twoEntryInput false (by decide) (by decide)

/-! ## Flush on an over-capacity package -/

theorem buildHashTable_524289_none (es : List FileEntry) :
    buildHashTable 524289 es = none := by
  unfold buildHashTable
  rw [show hashTableSize 524289 = none from by decide]

theorem filter_live_replicate_zeroEntry :
    ∀ n, (List.replicate n zeroEntry).filter (fun e => !isDeleted e) =
      List.replicate n zeroEntry := by
  intro n
  induction n with
  | zero => rfl
  | succ n ih =>
    rw [List.replicate_succ, List.filter_cons_of_pos (by decide), ih]

/-- C7 counterexample: a writable dirty package with 524289 live entries
(reachable by 524289 zero-length `addFile`s on an empty package). `flush`
keeps all entries, clears the dirty flag — but `buildHashTable` fails on
524289 > 0x80000 entries and `flush` discards the failure, leaving the
stale (still empty) 256-slot hash index: the index has *not* been rebuilt
from the compacted table. -/
theorem C7_counterexample :
    hugePkg.readonly = false ∧ hugePkg.dirty = true ∧
    hugePkg.filenames.length = hugePkg.fileEntries.length ∧
    hugePkg.header.fileCount = hugePkg.fileEntries.length ∧
    (∀ e ∈ hugePkg.fileEntries, isDeleted e = false) ∧
    (flush hugePkg).dirty = false ∧
    (flush hugePkg).hashTable = List.replicate 256 (-1) ∧
    buildHashTable (flush hugePkg).header.fileCount (flush hugePkg).fileEntries = none := by
  have hfc : (flushCompact hugePkg.fileEntries hugePkg.filenames).1 =
      List.replicate 524289 zeroEntry := by
    rw [flushCompact_fst]
    exact filter_live_replicate_zeroEntry 524289
  have hcond : ¬ (hugePkg.readonly || !hugePkg.dirty) = true := by decide
  refine ⟨rfl, rfl, ?_, ?_, ?_, ?_, ?_, ?_⟩
  · show (List.replicate 524289 "x").length = (List.replicate 524289 zeroEntry).length
    rw [List.length_replicate, List.length_replicate]
  · show (524289 : Nat) = (List.replicate 524289 zeroEntry).length
    rw [List.length_replicate]
  · intro e he
    have := List.eq_of_mem_replicate he
    rw [this]
    decide
  · unfold flush
    rw [if_neg hcond]
  · unfold flush
    rw [if_neg hcond]
    dsimp only
    rw [hfc]
    rw [show hugePkg.header.fileCount = 524289 from rfl]
    rw [buildHashTable_524289_none]
    rfl
  · unfold flush
    rw [if_neg hcond]
    dsimp only
    rw [hfc]
    rw [show hugePkg.header.fileCount = 524289 from rfl]
    rw [buildHashTable_524289_none]

/-- C7 (amended): after `flush` returns on a writable dirty package (with
aligned tables): no remaining entry is tombstoned — the in-memory entry
table becomes exactly its live entries, the name table keeps the same
length — and the dirty flag is cleared; the hash index is rebuilt from
the compacted table *whenever that rebuild succeeds* (entry count within
the capacity of the maximum table size); when it fails, the failure is
discarded and the stale index is kept. -/
theorem C7_flush_postconditions (pkg : Package)
    (hro : pkg.readonly = false) (hdirty : pkg.dirty = true)
    (hlen : pkg.filenames.length = pkg.fileEntries.length) :
    (∀ e ∈ (flush pkg).fileEntries, isDeleted e = false) ∧
    (flush pkg).fileEntries = pkg.fileEntries.filter (fun e => !isDeleted e) ∧
    (flush pkg).filenames.length = (flush pkg).fileEntries.length ∧
    (flush pkg).dirty = false ∧
    (∀ t, buildHashTable pkg.header.fileCount
        (pkg.fileEntries.filter (fun e => !isDeleted e)) = some t →
      (flush pkg).hashTable = t) := by
  have hcond : ¬ (pkg.readonly || !pkg.dirty) = true := by
    rw [hro, hdirty]
    decide
  have hentries : (flush pkg).fileEntries = pkg.fileEntries.filter (fun e => !isDeleted e) := by
    unfold flush
    rw [if_neg hcond]
    exact flushCompact_fst pkg.fileEntries pkg.filenames
  refine ⟨?_, hentries, flush_lengths pkg hlen, ?_, ?_⟩
  · intro e he
    rw [hentries] at he
    have := List.of_mem_filter he
    simpa using this
  · unfold flush
    rw [if_neg hcond]
  · intro t ht
    unfold flush
    rw [if_neg hcond]
    dsimp only
    rw [flushCompact_fst pkg.fileEntries pkg.filenames, ht]

/-- Witness for C7 at a concrete state: flushing a small dirty package
with one live and one tombstoned entry drops the tombstone. -/
theorem C7_witness :
    (∀ e ∈ (flush smallDirtyPkg).fileEntries, isDeleted e = false) ∧
    (flush smallDirtyPkg).fileEntries = [entryA] ∧
    (flush smallDirtyPkg).dirty = false := by
  have h := C7_flush_postconditions smallDirtyPkg (by decide) (by decide) (by decide)
  refine ⟨h.1, ?_, h.2.2.2.1⟩
  rw [h.2.1]
  decide

/-! ## Basic properties of the allocation chain -/

theorem chainFromB_weaken :
    ∀ es a b, b ≤ a → chainFromB a es = true → chainFromB b es = true := by
  intro es
  induction es with
  | nil => intro a b _ _; rfl
  | cons e es ih =>
    intro a b hba h
    rw [chainFromB] at h ⊢
    by_cases hd : isDeleted e = true
    · rw [if_pos hd] at h ⊢
      exact ih a b hba h
    · rw [if_neg hd] at h ⊢
      simp only [Bool.and_eq_true, decide_eq_true_eq] at h ⊢
      obtain ⟨⟨h1, h2⟩, h3⟩ := h
      exact ⟨⟨by omega, h2⟩, h3⟩

theorem liveEnd_mono :
    ∀ es a b, a ≤ b → liveEnd a es ≤ liveEnd b es := by
  intro es
  induction es with
  | nil => intro a b h; exact h
  | cons e es ih =>
    intro a b h
    rw [liveEnd, liveEnd]
    by_cases hd : isDeleted e = true
    · rw [if_pos hd, if_pos hd]
      exact ih a b h
    · rw [if_neg hd, if_neg hd]

theorem le_liveEnd :
    ∀ es a, chainFromB a es = true → a ≤ liveEnd a es := by
  intro es
  induction es with
  | nil => intro a _; exact le_refl a
  | cons e es ih =>
    intro a h
    rw [chainFromB] at h
    rw [liveEnd]
    by_cases hd : isDeleted e = true
    · rw [if_pos hd] at h ⊢
      exact ih a h
    · rw [if_neg hd] at h ⊢
      simp only [Bool.and_eq_true, decide_eq_true_eq] at h
      obtain ⟨⟨h1, h2⟩, h3⟩ := h
      exact le_trans (by omega) (ih _ h3)

theorem fullChainB_chainFromB :
    ∀ es a, fullChainB a es = true → chainFromB a es = true := by
  intro es
  induction es with
  | nil => intro a _; rfl
  | cons e es ih =>
    intro a h
    rw [fullChainB] at h
    simp only [Bool.and_eq_true, decide_eq_true_eq] at h
    obtain ⟨⟨h1, h2⟩, h3⟩ := h
    rw [chainFromB]
    by_cases hd : isDeleted e = true
    · rw [if_pos hd]
      exact chainFromB_weaken es (e.byteOffset + e.fileSize) a (by omega) (ih _ h3)
    · rw [if_neg hd]
      simp only [Bool.and_eq_true, decide_eq_true_eq]
      exact ⟨⟨h1, h2⟩, ih _ h3⟩

theorem fullEnd_getLast :
    ∀ es a last, es.getLast? = some last → fullEnd a es = last.byteOffset + last.fileSize := by
  intro es
  induction es with
  | nil => intro a last h; cases h
  | cons e es ih =>
    intro a last h
    cases es with
    | nil =>
      rw [List.getLast?_singleton] at h
      cases h
      rfl
    | cons f fs =>
      rw [List.getLast?_cons_cons] at h
      rw [fullEnd]
      exact ih _ last h

theorem liveEnd_le_fullEnd :
    ∀ es a, fullChainB a es = true → liveEnd a es ≤ fullEnd a es := by
  intro es
  induction es with
  | nil => intro a _; exact le_refl _
  | cons e es ih =>
    intro a h
    rw [fullChainB] at h
    simp only [Bool.and_eq_true, decide_eq_true_eq] at h
    obtain ⟨⟨h1, h2⟩, h3⟩ := h
    rw [liveEnd, fullEnd]
    by_cases hd : isDeleted e = true
    · rw [if_pos hd]
      exact le_trans (liveEnd_mono es a (e.byteOffset + e.fileSize) (by omega)) (ih _ h3)
    · rw [if_neg hd]
      exact ih _ h3

theorem fullChainB_end_lt :
    ∀ es a last, fullChainB a es = true → es.getLast? = some last →
      last.byteOffset + last.fileSize < U64 := by
  intro es
  induction es with
  | nil => intro a last _ h; cases h
  | cons e es ih =>
    intro a last h hl
    rw [fullChainB] at h
    simp only [Bool.and_eq_true, decide_eq_true_eq] at h
    obtain ⟨⟨h1, h2⟩, h3⟩ := h
    cases es with
    | nil =>
      rw [List.getLast?_singleton] at hl
      cases hl
      exact h2
    | cons f fs =>
      rw [List.getLast?_cons_cons] at hl
      exact ih _ last h3 hl

theorem entriesCheck_fullChainB :
    ∀ es a feo, (∀ e ∈ es, e.byteOffset + e.fileSize < U64) →
      entriesCheck feo a es = true → fullChainB a es = true := by
  intro es
  induction es with
  | nil => intro a feo _ _; rfl
  | cons e es ih =>
    intro a feo hb h
    rw [entriesCheck] at h
    simp only [Bool.and_eq_true, decide_eq_true_eq] at h
    obtain ⟨⟨h1, h2⟩, h3⟩ := h
    rw [fullChainB]
    simp only [Bool.and_eq_true, decide_eq_true_eq]
    have hbe : e.byteOffset + e.fileSize < U64 := hb e (List.mem_cons_self e es)
    refine ⟨⟨h2, hbe⟩, ?_⟩
    rw [Nat.mod_eq_of_lt hbe] at h3
    exact ih _ feo (fun x hx => hb x (List.mem_cons_of_mem e hx)) h3

theorem chainFromB_filter :
    ∀ es a, chainFromB a (liveList es) = chainFromB a es := by
  intro es
  induction es with
  | nil => intro a; rfl
  | cons e es ih =>
    intro a
    rw [chainFromB]
    by_cases hd : isDeleted e = true
    · rw [if_pos hd]
      rw [show liveList (e :: es) = liveList es from by
        unfold liveList; rw [List.filter_cons_of_neg (by simp [hd])]]
      exact ih a
    · rw [if_neg hd]
      rw [show liveList (e :: es) = e :: liveList es from by
        unfold liveList
        rw [List.filter_cons_of_pos (by rw [Bool.not_eq_true] at hd; simp [hd])]]
      rw [chainFromB, if_neg hd]
      rw [ih (e.byteOffset + e.fileSize)]

theorem liveList_all_live :
    ∀ es e, e ∈ liveList es → isDeleted e = false := by
  intro es e he
  unfold liveList at he
  have := List.of_mem_filter he
  simpa using this

theorem chain_live_mem :
    ∀ es a e, chainFromB a es = true → e ∈ es → isDeleted e = false →
      a ≤ e.byteOffset ∧ e.byteOffset + e.fileSize < U64 := by
  intro es
  induction es with
  | nil => intro a e _ he _; cases he
  | cons f fs ih =>
    intro a e hch he hlive
    rw [chainFromB] at hch
    rcases List.mem_cons.1 he with he | he
    · subst he
      rw [if_neg (by rw [hlive]; exact Bool.false_ne_true)] at hch
      simp only [Bool.and_eq_true, decide_eq_true_eq] at hch
      exact hch.1
    · by_cases hd : isDeleted f = true
      · rw [if_pos hd] at hch
        exact ih a e hch he hlive
      · rw [if_neg hd] at hch
        simp only [Bool.and_eq_true, decide_eq_true_eq] at hch
        obtain ⟨⟨h1, h2⟩, h3⟩ := hch
        have := ih _ e h3 he hlive
        exact ⟨by omega, this.2⟩

theorem sorted_of_chain_allLive :
    ∀ l a, chainFromB a l = true → (∀ e ∈ l, isDeleted e = false) →
      sortedByOffsetB l = true := by
  intro l
  induction l with
  | nil => intro a _ _; rfl
  | cons e es ih =>
    intro a hch hlive
    cases es with
    | nil => rfl
    | cons f fs =>
      rw [chainFromB] at hch
      rw [if_neg (by rw [hlive e (List.mem_cons_self e (f :: fs))]; exact Bool.false_ne_true)] at hch
      simp only [Bool.and_eq_true, decide_eq_true_eq] at hch
      obtain ⟨⟨h1, h2⟩, h3⟩ := hch
      have hf := chain_live_mem (f :: fs) (e.byteOffset + e.fileSize) f h3
        (List.mem_cons_self f fs) (hlive f (List.mem_cons_of_mem e (List.mem_cons_self f fs)))
      rw [sortedByOffsetB]
      simp only [Bool.and_eq_true, decide_eq_true_eq]
      refine ⟨by omega, ?_⟩
      exact ih _ h3 (fun x hx => hlive x (List.mem_cons_of_mem e hx))

theorem disjoint_of_chain_allLive :
    ∀ l a, chainFromB a l = true → (∀ e ∈ l, isDeleted e = false) →
      pairwiseDisjointB l = true := by
  intro l
  induction l with
  | nil => intro a _ _; rfl
  | cons e es ih =>
    intro a hch hlive
    rw [chainFromB] at hch
    rw [if_neg (by rw [hlive e (List.mem_cons_self e es)]; exact Bool.false_ne_true)] at hch
    simp only [Bool.and_eq_true, decide_eq_true_eq] at hch
    obtain ⟨⟨h1, h2⟩, h3⟩ := hch
    rw [pairwiseDisjointB]
    simp only [Bool.and_eq_true]
    constructor
    · rw [List.all_eq_true]
      intro y hy
      have hym := chain_live_mem es (e.byteOffset + e.fileSize) y h3 hy
        (hlive y (List.mem_cons_of_mem e hy))
      unfold rangesDisjointB
      simp only [Bool.or_eq_true, decide_eq_true_eq]
      exact Or.inl (by omega)
    · exact ih _ h3 (fun x hx => hlive x (List.mem_cons_of_mem e hx))

theorem chain_sorted_live (es : List FileEntry) (a : Nat) (h : chainFromB a es = true) :
    sortedByOffsetB (liveList es) = true := by
  apply sorted_of_chain_allLive (liveList es) a
  · rw [chainFromB_filter]; exact h
  · exact liveList_all_live es

theorem chain_disjoint_live (es : List FileEntry) (a : Nat) (h : chainFromB a es = true) :
    pairwiseDisjointB (liveList es) = true := by
  apply disjoint_of_chain_allLive (liveList es) a
  · rw [chainFromB_filter]; exact h
  · exact liveList_all_live es

/-! ## insertFile preserves the allocation chain -/

theorem sub64_eq (a b : Nat) (hba : b ≤ a) (ha : a < U64) : sub64 a b = a - b := by
  unfold sub64 U64 at *
  omega

theorem insertAt_ne_nil {α : Type} (x : α) : ∀ n l, insertAt n x l ≠ [] := by
  intro n l
  cases n with
  | zero => cases l <;> simp [insertAt]
  | succ n => cases l <;> simp [insertAt]

theorem getLast?_cons_of_ne_nil {α : Type} (e : α) :
    ∀ l, l ≠ [] → (e :: l).getLast? = l.getLast? := by
  intro l h
  cases l with
  | nil => exact absurd rfl h
  | cons f fs => exact List.getLast?_cons_cons

theorem insertAt_getLast? {α : Type} (x : α) :
    ∀ n l, n < List.length l → (insertAt n x l).getLast? = l.getLast? := by
  intro n
  induction n with
  | zero =>
    intro l h
    cases l with
    | nil => simp at h
    | cons e es =>
      show (x :: e :: es).getLast? = (e :: es).getLast?
      exact List.getLast?_cons_cons
  | succ n ih =>
    intro l h
    cases l with
    | nil => simp at h
    | cons e es =>
      show (e :: insertAt n x es).getLast? = (e :: es).getLast?
      have hes : n < es.length := by simpa using h
      have hne : es ≠ [] := by
        cases es with
        | nil => simp at hes
        | cons f fs => simp
      rw [getLast?_cons_of_ne_nil e (insertAt n x es) (insertAt_ne_nil x n es)]
      rw [getLast?_cons_of_ne_nil e es hne]
      exact ih es hes

theorem findPos_splice (entry : FileEntry) (hlive : isDeleted entry = false) :
    ∀ es lastEnd i off,
      chainFromB lastEnd es = true →
      findPos entry.fileSize lastEnd es = some (i, off) →
      chainFromB lastEnd (insertAt i { entry with byteOffset := off } es) = true ∧
      liveEnd lastEnd (insertAt i { entry with byteOffset := off } es) = liveEnd lastEnd es := by
  intro es
  induction es with
  | nil =>
    intro lastEnd i off _ h
    rw [findPos] at h
    cases h
  | cons e es ih =>
    intro lastEnd i off hch h
    rw [findPos] at h
    rw [chainFromB] at hch
    by_cases hd : isDeleted e = true
    · rw [if_pos hd] at h hch
      cases hrec : findPos entry.fileSize lastEnd es with
      | none => rw [hrec] at h; cases h
      | some p =>
        rw [hrec] at h
        cases h
        obtain ⟨ihc, ihl⟩ := ih lastEnd p.1 p.2 hch (by rw [hrec])
        constructor
        · show chainFromB lastEnd (e :: insertAt p.1 _ es) = true
          rw [chainFromB, if_pos hd]
          exact ihc
        · show liveEnd lastEnd (e :: insertAt p.1 _ es) = liveEnd lastEnd (e :: es)
          rw [liveEnd, if_pos hd, liveEnd, if_pos hd]
          exact ihl
    · rw [if_neg hd] at h hch
      simp only [Bool.and_eq_true, decide_eq_true_eq] at hch
      obtain ⟨⟨h1, h2⟩, h3⟩ := hch
      by_cases hfit : entry.fileSize ≤ sub64 e.byteOffset lastEnd
      · rw [if_pos hfit] at h
        cases h
        have hoff : e.byteOffset < U64 := by omega
        rw [sub64_eq e.byteOffset lastEnd h1 hoff] at hfit
        have hfit2 : lastEnd + entry.fileSize ≤ e.byteOffset := by omega
        have hxlive : isDeleted { entry with byteOffset := lastEnd } = false := hlive
        constructor
        · show chainFromB lastEnd ({ entry with byteOffset := lastEnd } :: e :: es) = true
          rw [chainFromB, if_neg (by rw [hxlive]; exact Bool.false_ne_true)]
          simp only [Bool.and_eq_true, decide_eq_true_eq]
          refine ⟨⟨le_refl _, by omega⟩, ?_⟩
          rw [chainFromB, if_neg hd]
          simp only [Bool.and_eq_true, decide_eq_true_eq]
          exact ⟨⟨by omega, h2⟩, h3⟩
        · show liveEnd lastEnd ({ entry with byteOffset := lastEnd } :: e :: es) =
            liveEnd lastEnd (e :: es)
          rw [liveEnd, if_neg (by rw [hxlive]; exact Bool.false_ne_true)]
          rw [liveEnd, if_neg hd, liveEnd, if_neg hd]
      · rw [if_neg hfit] at h
        cases hrec : findPos entry.fileSize ((e.byteOffset + e.fileSize) % U64) es with
        | none => rw [hrec] at h; cases h
        | some p =>
          rw [hrec] at h
          cases h
          rw [Nat.mod_eq_of_lt h2] at hrec
          obtain ⟨ihc, ihl⟩ := ih (e.byteOffset + e.fileSize) p.1 p.2 h3 (by rw [hrec])
          constructor
          · show chainFromB lastEnd (e :: insertAt p.1 _ es) = true
            rw [chainFromB, if_neg hd]
            simp only [Bool.and_eq_true, decide_eq_true_eq]
            exact ⟨⟨h1, h2⟩, ihc⟩
          · show liveEnd lastEnd (e :: insertAt p.1 _ es) = liveEnd lastEnd (e :: es)
            rw [liveEnd, if_neg hd, liveEnd, if_neg hd]
            exact ihl

theorem chain_append_live (y : FileEntry) (hylive : isDeleted y = false) :
    ∀ es a, chainFromB a es = true → liveEnd a es ≤ y.byteOffset →
      y.byteOffset + y.fileSize < U64 →
      chainFromB a (es ++ [y]) = true := by
  intro es
  induction es with
  | nil =>
    intro a _ hle hb
    rw [List.nil_append, chainFromB]
    rw [if_neg (by rw [hylive]; exact Bool.false_ne_true)]
    simp only [Bool.and_eq_true, decide_eq_true_eq]
    exact ⟨⟨hle, hb⟩, rfl⟩
  | cons e es ih =>
    intro a hch hle hb
    rw [chainFromB] at hch
    rw [List.cons_append, chainFromB]
    rw [liveEnd] at hle
    by_cases hd : isDeleted e = true
    · rw [if_pos hd] at hch hle ⊢
      exact ih a hch hle hb
    · rw [if_neg hd] at hch hle ⊢
      simp only [Bool.and_eq_true, decide_eq_true_eq] at hch ⊢
      obtain ⟨⟨h1, h2⟩, h3⟩ := hch
      exact ⟨⟨h1, h2⟩, ih _ h3 hle hb⟩

theorem liveEnd_append_live (y : FileEntry) (hylive : isDeleted y = false) :
    ∀ es a, liveEnd a (es ++ [y]) = y.byteOffset + y.fileSize := by
  intro es
  induction es with
  | nil =>
    intro a
    rw [List.nil_append, liveEnd]
    rw [if_neg (by rw [hylive]; exact Bool.false_ne_true)]
    rfl
  | cons e es ih =>
    intro a
    rw [List.cons_append, liveEnd]
    by_cases hd : isDeleted e = true
    · rw [if_pos hd]; exact ih a
    · rw [if_neg hd]; exact ih _

theorem insertFile_inv (hdr : PackageHeader) (entries : List FileEntry) (names : List String)
    (table : List Int) (entry : FileEntry) (nm : String)
    (hhs : hdr.headerSize = sizeofPackageHeader)
    (hch : chainFromB hdr.headerSize entries = true)
    (hte : tableEndOkB hdr.headerSize entries = true)
    (hlive : isDeleted entry = false)
    (hbound : appendEnd entries + entry.fileSize < U64) :
    chainFromB hdr.headerSize (insertFile hdr entries names table entry nm).fileEntries = true ∧
    tableEndOkB hdr.headerSize (insertFile hdr entries names table entry nm).fileEntries = true := by
  unfold insertFile
  cases hfp : findPos entry.fileSize hdr.headerSize entries with
  | some p =>
    cases p with
    | mk i off =>
      dsimp only
      obtain ⟨hc, hl⟩ := findPos_splice entry hlive entries hdr.headerSize i off hch hfp
      have hi : i < entries.length := findPos_lt_length entry.fileSize entries hdr.headerSize i off hfp
      refine ⟨hc, ?_⟩
      unfold tableEndOkB at hte ⊢
      rw [insertAt_getLast? _ i entries hi]
      cases hlast : entries.getLast? with
      | none => rfl
      | some last =>
        rw [hlast] at hte
        simp only [Bool.and_eq_true, decide_eq_true_eq] at hte ⊢
        rw [hl]
        exact hte
  | none =>
    dsimp only
    cases hlast : entries.getLast? with
    | none =>
      have hnil : entries = [] := List.getLast?_eq_none_iff.mp hlast
      subst hnil
      unfold appendEnd at hbound
      rw [List.getLast?_nil] at hbound
      dsimp only at hbound
      constructor
      · rw [List.nil_append, chainFromB]
        rw [if_neg (by rw [show isDeleted { entry with byteOffset := sizeofPackageHeader } =
            isDeleted entry from rfl, hlive]; exact Bool.false_ne_true)]
        simp only [Bool.and_eq_true, decide_eq_true_eq]
        exact ⟨⟨le_of_eq hhs, by omega⟩, rfl⟩
      · unfold tableEndOkB
        rw [List.nil_append, List.getLast?_singleton]
        simp only [Bool.and_eq_true, decide_eq_true_eq]
        have he : isDeleted { entry with byteOffset := sizeofPackageHeader } = false := hlive
        constructor
        · rw [liveEnd, if_neg (by rw [he]; exact Bool.false_ne_true)]
          exact le_refl _
        · omega
    | some last =>
      unfold tableEndOkB at hte
      rw [hlast] at hte
      simp only [Bool.and_eq_true, decide_eq_true_eq] at hte
      obtain ⟨hte1, hte2⟩ := hte
      unfold appendEnd at hbound
      rw [hlast] at hbound
      dsimp only at hbound
      dsimp only
      rw [Nat.mod_eq_of_lt hte2]
      have hylive : isDeleted { entry with byteOffset := last.byteOffset + last.fileSize } =
          false := hlive
      constructor
      · exact chain_append_live _ hylive entries hdr.headerSize hch hte1 (by dsimp only; omega)
      · unfold tableEndOkB
        rw [List.getLast?_concat]
        simp only [Bool.and_eq_true, decide_eq_true_eq]
        rw [liveEnd_append_live _ hylive]
        exact ⟨le_refl _, by omega⟩

/-! ## removeFile, flush and defrag preserve the allocation chain -/

theorem chainFromB_markDel :
    ∀ es a i, chainFromB a es = true →
      chainFromB a (modifyAt (fun e => { e with flag := e.flag ||| FILE_FLAG_DELETED }) i es)
        = true := by
  intro es
  induction es with
  | nil => intro a i _; cases i <;> rfl
  | cons e es ih =>
    intro a i hch
    rw [chainFromB] at hch
    cases i with
    | zero =>
      show chainFromB a ({ e with flag := e.flag ||| FILE_FLAG_DELETED } :: es) = true
      rw [chainFromB]
      rw [if_pos (by
        unfold isDeleted
        dsimp only
        exact bne_iff_ne.mpr (isDeleted_after_lor e.flag))]
      by_cases hd : isDeleted e = true
      · rw [if_pos hd] at hch
        exact hch
      · rw [if_neg hd] at hch
        simp only [Bool.and_eq_true, decide_eq_true_eq] at hch
        obtain ⟨⟨h1, h2⟩, h3⟩ := hch
        exact chainFromB_weaken es (e.byteOffset + e.fileSize) a (by omega) h3
    | succ i =>
      show chainFromB a (e :: modifyAt _ i es) = true
      rw [chainFromB]
      by_cases hd : isDeleted e = true
      · rw [if_pos hd] at hch ⊢
        exact ih a i hch
      · rw [if_neg hd] at hch ⊢
        simp only [Bool.and_eq_true, decide_eq_true_eq] at hch ⊢
        obtain ⟨⟨h1, h2⟩, h3⟩ := hch
        exact ⟨⟨h1, h2⟩, ih _ i h3⟩

theorem liveEnd_markDel_le :
    ∀ es a i, chainFromB a es = true →
      liveEnd a (modifyAt (fun e => { e with flag := e.flag ||| FILE_FLAG_DELETED }) i es)
        ≤ liveEnd a es := by
  intro es
  induction es with
  | nil => intro a i _; cases i <;> exact le_refl _
  | cons e es ih =>
    intro a i hch
    rw [chainFromB] at hch
    cases i with
    | zero =>
      show liveEnd a ({ e with flag := e.flag ||| FILE_FLAG_DELETED } :: es) ≤ _
      rw [liveEnd]
      rw [if_pos (by
        unfold isDeleted
        dsimp only
        exact bne_iff_ne.mpr (isDeleted_after_lor e.flag))]
      rw [liveEnd]
      by_cases hd : isDeleted e = true
      · rw [if_pos hd]
      · rw [if_neg hd]
        rw [if_neg hd] at hch
        simp only [Bool.and_eq_true, decide_eq_true_eq] at hch
        obtain ⟨⟨h1, h2⟩, h3⟩ := hch
        exact liveEnd_mono es a (e.byteOffset + e.fileSize) (by omega)
    | succ i =>
      show liveEnd a (e :: modifyAt _ i es) ≤ _
      rw [liveEnd, liveEnd]
      by_cases hd : isDeleted e = true
      · rw [if_pos hd, if_pos hd]
        rw [if_pos hd] at hch
        exact ih a i hch
      · rw [if_neg hd, if_neg hd]
        rw [if_neg hd] at hch
        simp only [Bool.and_eq_true, decide_eq_true_eq] at hch
        exact ih _ i hch.2

theorem modifyAt_ne_nil (f : FileEntry → FileEntry) (i : Nat) (e : FileEntry)
    (es : List FileEntry) : modifyAt f i (e :: es) ≠ [] := by
  cases i <;> simp [modifyAt]

theorem modifyAt_getLast?_end (f : FileEntry → FileEntry)
    (hf : ∀ e, (f e).byteOffset = e.byteOffset ∧ (f e).fileSize = e.fileSize) :
    ∀ es i, ((modifyAt f i es).getLast?).map (fun e => e.byteOffset + e.fileSize) =
      (es.getLast?).map (fun e => e.byteOffset + e.fileSize) := by
  intro es
  induction es with
  | nil => intro i; cases i <;> rfl
  | cons e es ih =>
    intro i
    cases i with
    | zero =>
      show ((f e :: es).getLast?).map _ = _
      cases es with
      | nil =>
        rw [List.getLast?_singleton, List.getLast?_singleton]
        dsimp only [Option.map_some']
        rw [(hf e).1, (hf e).2]
      | cons g gs =>
        rw [List.getLast?_cons_cons, List.getLast?_cons_cons]
    | succ i =>
      show ((e :: modifyAt f i es).getLast?).map _ = _
      cases es with
      | nil =>
        cases i <;> rfl
      | cons g gs =>
        rw [getLast?_cons_of_ne_nil e _ (modifyAt_ne_nil f i g gs)]
        rw [List.getLast?_cons_cons]
        exact ih i

theorem tombstoneAt_inv (pkg : Package) (i : Nat)
    (h : pkgInv pkg = true) : pkgInv (tombstoneAt pkg i) = true := by
  obtain ⟨⟨sg, vr, hs, fesz, feo, fc, fno, fnsz⟩, fes, fns, ht, ro, di, va⟩ := pkg
  unfold pkgInv at h
  simp only [Bool.and_eq_true, decide_eq_true_eq] at h
  obtain ⟨⟨hhs, hch⟩, hte⟩ := h
  unfold pkgInv tombstoneAt
  simp only [Bool.and_eq_true, decide_eq_true_eq]
  refine ⟨⟨hhs, chainFromB_markDel fes hs i hch⟩, ?_⟩
  unfold tableEndOkB at hte ⊢
  cases hl2 : (modifyAt (fun e => { e with flag := e.flag ||| FILE_FLAG_DELETED }) i
      fes).getLast? with
  | none => rfl
  | some last2 =>
    have hmap := modifyAt_getLast?_end (fun e => { e with flag := e.flag ||| FILE_FLAG_DELETED })
      (fun e => ⟨rfl, rfl⟩) fes i
    rw [hl2] at hmap
    cases hlast : fes.getLast? with
    | none =>
      rw [hlast] at hmap
      cases hmap
    | some last =>
      rw [hlast] at hmap hte
      simp only [Option.map_some', Option.some.injEq] at hmap
      simp only [Bool.and_eq_true, decide_eq_true_eq] at hte ⊢
      rw [hmap]
      refine ⟨?_, hte.2⟩
      exact le_trans (liveEnd_markDel_le fes hs i hch) hte.1

theorem liveEnd_filter :
    ∀ es a, liveEnd a (liveList es) = liveEnd a es := by
  intro es
  induction es with
  | nil => intro a; rfl
  | cons e es ih =>
    intro a
    rw [liveEnd]
    by_cases hd : isDeleted e = true
    · rw [if_pos hd]
      rw [show liveList (e :: es) = liveList es from by
        unfold liveList; rw [List.filter_cons_of_neg (by simp [hd])]]
      exact ih a
    · rw [if_neg hd]
      rw [show liveList (e :: es) = e :: liveList es from by
        unfold liveList
        rw [List.filter_cons_of_pos (by rw [Bool.not_eq_true] at hd; simp [hd])]]
      rw [liveEnd, if_neg hd]
      exact ih _

theorem liveEnd_allLive_getLast :
    ∀ l a last, (∀ e ∈ l, isDeleted e = false) → l.getLast? = some last →
      liveEnd a l = last.byteOffset + last.fileSize := by
  intro l
  induction l with
  | nil => intro a last _ h; cases h
  | cons e es ih =>
    intro a last hlive hl
    rw [liveEnd]
    rw [if_neg (by rw [hlive e (List.mem_cons_self e es)]; exact Bool.false_ne_true)]
    cases es with
    | nil =>
      rw [List.getLast?_singleton] at hl
      cases hl
      rfl
    | cons g gs =>
      rw [List.getLast?_cons_cons] at hl
      exact ih _ last (fun x hx => hlive x (List.mem_cons_of_mem e hx)) hl

theorem tableEndOkB_filter (es : List FileEntry) (a : Nat)
    (hch : chainFromB a es = true) : tableEndOkB a (liveList es) = true := by
  unfold tableEndOkB
  cases hl : (liveList es).getLast? with
  | none => rfl
  | some last =>
    have hmem : last ∈ liveList es := by
      obtain ⟨hne, heq⟩ := List.mem_getLast?_eq_getLast (Option.mem_def.mpr hl)
      rw [heq]
      exact List.getLast_mem hne
    have hlive : isDeleted last = false := liveList_all_live es last hmem
    have hmes : last ∈ es := List.mem_of_mem_filter hmem
    have hb := chain_live_mem es a last hch hmes hlive
    simp only [Bool.and_eq_true, decide_eq_true_eq]
    constructor
    · rw [liveEnd_allLive_getLast (liveList es) a last (liveList_all_live es) hl]
    · exact hb.2

theorem flush_inv (pkg : Package) (h : pkgInv pkg = true) : pkgInv (flush pkg) = true := by
  unfold flush
  by_cases hb : (pkg.readonly || !pkg.dirty) = true
  · rw [if_pos hb]; exact h
  · rw [if_neg hb]
    unfold pkgInv at h ⊢
    simp only [Bool.and_eq_true, decide_eq_true_eq] at h ⊢
    obtain ⟨⟨hhs, hch⟩, hte⟩ := h
    rw [flushCompact_fst]
    refine ⟨⟨hhs, ?_⟩, ?_⟩
    · show chainFromB pkg.header.headerSize (liveList pkg.fileEntries) = true
      rw [chainFromB_filter]
      exact hch
    · exact tableEndOkB_filter pkg.fileEntries pkg.header.headerSize hch

theorem fullChain_tableEndOkB (es : List FileEntry) (a : Nat)
    (h : fullChainB a es = true) : tableEndOkB a es = true := by
  unfold tableEndOkB
  cases hl : es.getLast? with
  | none => rfl
  | some last =>
    simp only [Bool.and_eq_true, decide_eq_true_eq]
    constructor
    · rw [← fullEnd_getLast es a last hl]
      exact liveEnd_le_fullEnd es a h
    · exact fullChainB_end_lt es a last h hl

theorem defragPack_fullChain :
    ∀ es pos, pos + (es.map FileEntry.fileSize).sum < U64 →
      fullChainB pos (defragPack pos es).1 = true := by
  intro es
  induction es with
  | nil => intro pos _; rfl
  | cons e es ih =>
    intro pos hb
    rw [List.map_cons, List.sum_cons] at hb
    have hmod : (pos + e.fileSize) % U64 = pos + e.fileSize :=
      Nat.mod_eq_of_lt (by omega)
    show fullChainB pos ({ e with byteOffset := pos } ::
      (defragPack ((pos + e.fileSize) % U64) es).1) = true
    rw [fullChainB]
    simp only [Bool.and_eq_true, decide_eq_true_eq]
    rw [hmod]
    exact ⟨⟨le_refl pos, by omega⟩, ih (pos + e.fileSize) (by omega)⟩

theorem defrag_inv (pkg : Package) (b : Bool)
    (h : pkgInv pkg = true)
    (hsum : pkg.header.headerSize + (pkg.fileEntries.map FileEntry.fileSize).sum < U64) :
    pkgInv (defrag pkg b).2 = true := by
  unfold defrag
  by_cases hc : (pkg.readonly || pkg.dirty) = true
  · rw [if_pos hc]; exact h
  · rw [if_neg hc]
    dsimp only
    have hfull := defragPack_fullChain pkg.fileEntries pkg.header.headerSize hsum
    have hhs : pkg.header.headerSize = sizeofPackageHeader := by
      unfold pkgInv at h
      simp only [Bool.and_eq_true, decide_eq_true_eq] at h
      exact h.1.1
    have hmid : pkgInv { pkg with
        fileEntries := (defragPack pkg.header.headerSize pkg.fileEntries).1,
        header := { pkg.header with
          fileEntryOffset := (defragPack pkg.header.headerSize pkg.fileEntries).2,
          filenameOffset := ((defragPack pkg.header.headerSize pkg.fileEntries).2 +
            sizeofFileEntry * pkg.header.fileCount) % U64 },
        dirty := true } = true := by
      unfold pkgInv
      simp only [Bool.and_eq_true, decide_eq_true_eq]
      exact ⟨⟨hhs, fullChainB_chainFromB _ _ hfull⟩,
        fullChain_tableEndOkB _ _ hfull⟩
    by_cases hr : (!b) = true
    · rw [if_pos hr]
      dsimp only
      exact flush_inv _ hmid
    · rw [if_neg hr]
      exact flush_inv _ hmid

theorem readFileEntries_some_check (h : PackageHeader) (disk : List FileEntry)
    (es : List FileEntry) (hr : readFileEntries h disk = some es) :
    entriesCheck h.fileEntryOffset h.headerSize es = true := by
  unfold readFileEntries at hr
  by_cases hc : entriesCheck h.fileEntryOffset h.headerSize (padTake h.fileCount disk) = true
  · rw [if_pos hc] at hr
    cases hr
    exact hc
  · rw [if_neg hc] at hr
    cases hr

theorem openPackage_inv (inp : OpenInput) (ro : Bool)
    (hhs : inp.header.headerSize = sizeofPackageHeader)
    (hb : ∀ e ∈ (openPackage inp ro).fileEntries, e.byteOffset + e.fileSize < U64)
    (hv : (openPackage inp ro).valid = true) :
    pkgInv (openPackage inp ro) = true := by
  by_cases hs : inp.streamOk = true
  · by_cases hh : readHeaderOk inp.header inp.packageSize = true
    · cases hr : readFileEntries inp.header inp.diskEntries with
      | none =>
        unfold openPackage at hv
        rw [hs, hh, hr] at hv
        simp only [Bool.not_true, Bool.false_eq_true, if_false] at hv
        cases hv
      | some es =>
        have heq := openPackage_eq_of_success inp ro es hs hh hr
        rw [heq] at hb ⊢
        dsimp only at hb ⊢
        have hchk := readFileEntries_some_check inp.header inp.diskEntries es hr
        have hfull := entriesCheck_fullChainB es inp.header.headerSize
          inp.header.fileEntryOffset hb hchk
        unfold pkgInv
        simp only [Bool.and_eq_true, decide_eq_true_eq]
        exact ⟨⟨hhs, fullChainB_chainFromB es _ hfull⟩,
          fullChain_tableEndOkB es _ hfull⟩
    · unfold openPackage at hv
      rw [hs] at hv
      rw [Bool.not_eq_true] at hh
      rw [hh] at hv
      simp only [Bool.not_true, Bool.false_eq_true, if_false, Bool.not_false, if_true] at hv
      cases hv
  · unfold openPackage at hv
    rw [Bool.not_eq_true] at hs
    rw [hs] at hv
    simp only [Bool.not_false, if_true] at hv
    cases hv

theorem addFilePlace_inv (pkg : Package) (sz : Nat) (nm : String)
    (h : pkgInv pkg = true)
    (hbound : appendEnd pkg.fileEntries + sz % U32 < U64) :
    pkgInv (addFilePlace pkg sz nm) = true := by
  unfold pkgInv at h
  simp only [Bool.and_eq_true, decide_eq_true_eq] at h
  obtain ⟨⟨hhs, hch⟩, hte⟩ := h
  obtain ⟨hc, ht⟩ := insertFile_inv pkg.header pkg.fileEntries pkg.filenames pkg.hashTable
    { hash0 := stringHash nm HASH_SEED0, hash1 := stringHash nm HASH_SEED1,
      hash2 := stringHash nm HASH_SEED2, flag := 0, byteOffset := 0, fileSize := sz % U32 }
    nm hhs hch hte (by unfold isDeleted; dsimp only; decide) hbound
  unfold pkgInv addFilePlace
  simp only [Bool.and_eq_true, decide_eq_true_eq]
  exact ⟨⟨hhs, hc⟩, ht⟩

theorem removeFile_inv (pkg : Package) (nm : String) (r : Bool × Package)
    (h : pkgInv pkg = true) (hr : removeFile pkg nm = some r) :
    pkgInv r.2 = true := by
  unfold removeFile at hr
  by_cases hro : pkg.readonly = true
  · rw [if_pos hro] at hr
    cases hr
    exact h
  · rw [if_neg hro] at hr
    cases hfi : getFileIndex pkg nm with
    | none => rw [hfi] at hr; cases hr
    | some fi =>
      rw [hfi] at hr
      dsimp only at hr
      by_cases hneg : fi < 0
      · rw [if_pos hneg] at hr
        cases hr
        exact h
      · rw [if_neg hneg] at hr
        cases hr
        exact tombstoneAt_inv pkg fi.toNat h

theorem appendEnd_markDel (es : List FileEntry) (i : Nat) :
    appendEnd (modifyAt (fun e => { e with flag := e.flag ||| FILE_FLAG_DELETED }) i es) =
      appendEnd es := by
  unfold appendEnd
  have hmap := modifyAt_getLast?_end (fun e => { e with flag := e.flag ||| FILE_FLAG_DELETED })
    (fun e => ⟨rfl, rfl⟩) es i
  cases h1 : (modifyAt (fun e => { e with flag := e.flag ||| FILE_FLAG_DELETED }) i es).getLast?
    with
  | none =>
    rw [h1] at hmap
    cases h2 : es.getLast? with
    | none => rfl
    | some last =>
      rw [h2] at hmap
      cases hmap
  | some last2 =>
    rw [h1] at hmap
    cases h2 : es.getLast? with
    | none =>
      rw [h2] at hmap
      cases hmap
    | some last =>
      rw [h2] at hmap
      simp only [Option.map_some', Option.some.injEq] at hmap
      exact hmap

theorem addFile_inv (pkg : Package) (ok : Bool) (sz : Nat) (nm : String) (fl : Nat)
    (r : Bool × Package)
    (h : pkgInv pkg = true)
    (hbound : appendEnd pkg.fileEntries + sz % U32 < U64)
    (hr : addFile pkg ok sz nm fl = some r) :
    pkgInv r.2 = true := by
  unfold addFile at hr
  by_cases hro : pkg.readonly = true
  · rw [if_pos hro] at hr
    cases hr
    exact h
  · rw [if_neg hro] at hr
    by_cases hok : (!ok) = true
    · rw [if_pos hok] at hr
      cases hr
      exact h
    · rw [if_neg hok] at hr
      cases hfi : getFileIndex pkg nm with
      | none => rw [hfi] at hr; cases hr
      | some fi =>
        rw [hfi] at hr
        dsimp only at hr
        by_cases hnn : (0 : Int) ≤ fi
        · rw [if_pos hnn] at hr
          by_cases hfl : fl &&& FLAG_REPLACE = 0
          · rw [if_pos hfl] at hr
            cases hr
            exact h
          · rw [if_neg hfl] at hr
            cases hrm : removeFile pkg nm with
            | none => rw [hrm] at hr; cases hr
            | some q =>
              rw [hrm] at hr
              cases q with
              | mk qb qp =>
                dsimp only at hr
                cases hr
                have hq : pkgInv qp = true := removeFile_inv pkg nm (qb, qp) h hrm
                have hqb : appendEnd qp.fileEntries + sz % U32 < U64 := by
                  unfold removeFile at hrm
                  rw [if_neg hro] at hrm
                  cases hfi2 : getFileIndex pkg nm with
                  | none => rw [hfi2] at hrm; cases hrm
                  | some fi2 =>
                    rw [hfi2] at hrm
                    dsimp only at hrm
                    by_cases hneg : fi2 < 0
                    · rw [if_pos hneg] at hrm
                      cases hrm
                      exact hbound
                    · rw [if_neg hneg] at hrm
                      cases hrm
                      show appendEnd (tombstoneAt pkg fi2.toNat).fileEntries + sz % U32 < U64
                      unfold tombstoneAt
                      dsimp only
                      rw [appendEnd_markDel]
                      exact hbound
                exact addFilePlace_inv qp sz nm hq hqb
        · rw [if_neg hnn] at hr
          cases hr
          exact addFilePlace_inv pkg sz nm h hbound

/-- C1 counterexample: open an archive holding "a" at `[40,50)`, "t" at
`[60,65)` (a gap precedes it) and "b" at `[80,90)`; `removeFile("t")`
tombstones the middle entry; `addFile("c")` of 25 bytes then splices the
new entry at offset 50 *after* the tombstone at offset 60 — the entry
table is no longer sorted by byte offset at an externally observable
point. -/
theorem C1_counterexample :
    ((removeFile (openPackage gapInput false) "t").bind
      (fun r => addFile r.2 true 25 "c" 0)).map
      (fun r => (r.1, r.2.fileEntries.map (fun e => (e.byteOffset, isDeleted e)),
                 sortedByOffsetB r.2.fileEntries)) =
      some (true, [(40, false), (60, true), (50, false), (80, false)], false) := by
  decide

/-- C1 (amended): provided the header size equals the built-in
`sizeof(PackageHeader)` (the empty-table append path hard-codes it) and
the placement arithmetic stays below `2^64`, the *live* (non-tombstoned)
entries of the table are sorted by ascending byte offset at every
externally observable point: the invariant `pkgInv` — the live entries
form an allocation chain — is established by a successful open and
preserved by `addFile`, `removeFile`, `flush` and `defrag`, and it implies
that the live subsequence is sorted. The full table (tombstones included)
is *not* always sorted, as the counterexample shows. -/
theorem C1_live_sorted_invariant :
    (∀ inp ro, inp.header.headerSize = sizeofPackageHeader →
      (∀ e ∈ (openPackage inp ro).fileEntries, e.byteOffset + e.fileSize < U64) →
      (openPackage inp ro).valid = true →
      pkgInv (openPackage inp ro) = true) ∧
    (∀ pkg ok sz nm fl r, pkgInv pkg = true →
      appendEnd pkg.fileEntries + sz % U32 < U64 →
      addFile pkg ok sz nm fl = some r → pkgInv r.2 = true) ∧
    (∀ pkg nm r, pkgInv pkg = true → removeFile pkg nm = some r → pkgInv r.2 = true) ∧
    (∀ pkg, pkgInv pkg = true → pkgInv (flush pkg) = true) ∧
    (∀ pkg b, pkgInv pkg = true →
      pkg.header.headerSize + (pkg.fileEntries.map FileEntry.fileSize).sum < U64 →
      pkgInv (defrag pkg b).2 = true) ∧
    (∀ pkg, pkgInv pkg = true → sortedByOffsetB (liveList pkg.fileEntries) = true) := by
  refine ⟨openPackage_inv, addFile_inv, removeFile_inv, flush_inv, defrag_inv, ?_⟩
  intro pkg h
  unfold pkgInv at h
  simp only [Bool.and_eq_true, decide_eq_true_eq] at h
  exact chain_sorted_live pkg.fileEntries pkg.header.headerSize h.1.2

/-- Witness for C1 at a concrete state: the freshly opened two-entry
archive satisfies the invariant and has its live entries sorted. -/
theorem C1_witness :
    pkgInv (openPackage twoEntryInput false) = true ∧
    sortedByOffsetB (liveList (openPackage twoEntryInput false).fileEntries) = true := by
  have h : pkgInv (openPackage twoEntryInput false) = true := by decide
  exact ⟨h, C1_live_sorted_invariant.2.2.2.2.2 (openPackage twoEntryInput false) h⟩

/-- C4 counterexample: a valid archive whose header claims
`headerSize = sizeof(PackageHeader) + 10` (accepted, since `readHeader`
only checks `≥`); the first `addFile` appends at the hard-coded
`sizeof(PackageHeader)` = 40 (inside the claimed header), the second
`addFile` sees the `u64` gap computation `40 - 50` wrap around, splices at
offset 50 — and the two live entries `[50, 59)` and `[40, 60)` overlap at
an externally observable point. -/
theorem C4_counterexample :
    ((addFile (openPackage bigHeaderInput false) true 20 "a" 0).bind
      (fun r => addFile r.2 true 9 "b" 0)).map
      (fun r => (r.1, r.2.fileEntries.map (fun e => (e.byteOffset, e.fileSize, isDeleted e)),
                 pairwiseDisjointB (liveList r.2.fileEntries))) =
      some (true, [(50, 9, false), (40, 20, false)], false) := by
  decide

/-- C4 (amended): provided the header size equals the built-in
`sizeof(PackageHeader)` and the placement arithmetic stays below `2^64`,
the byte ranges of any two live entries are disjoint at every externally
observable point: the allocation-chain invariant is established by a
successful open, preserved by `addFile`, `removeFile`, `flush` and
`defrag`, and implies pairwise disjointness of the live ranges. When the
on-disk header size exceeds `sizeof(PackageHeader)`, the empty-table
append path can place content inside the header region and a later splice
can overlap it, as the counterexample shows. -/
theorem C4_live_ranges_disjoint :
    (∀ inp ro, inp.header.headerSize = sizeofPackageHeader →
      (∀ e ∈ (openPackage inp ro).fileEntries, e.byteOffset + e.fileSize < U64) →
      (openPackage inp ro).valid = true →
      pkgInv (openPackage inp ro) = true) ∧
    (∀ pkg ok sz nm fl r, pkgInv pkg = true →
      appendEnd pkg.fileEntries + sz % U32 < U64 →
      addFile pkg ok sz nm fl = some r → pkgInv r.2 = true) ∧
    (∀ pkg nm r, pkgInv pkg = true → removeFile pkg nm = some r → pkgInv r.2 = true) ∧
    (∀ pkg, pkgInv pkg = true → pkgInv (flush pkg) = true) ∧
    (∀ pkg b, pkgInv pkg = true →
      pkg.header.headerSize + (pkg.fileEntries.map FileEntry.fileSize).sum < U64 →
      pkgInv (defrag pkg b).2 = true) ∧
    (∀ pkg, pkgInv pkg = true → pairwiseDisjointB (liveList pkg.fileEntries) = true) := by
  refine ⟨openPackage_inv, addFile_inv, removeFile_inv, flush_inv, defrag_inv, ?_⟩
  intro pkg h
  unfold pkgInv at h
  simp only [Bool.and_eq_true, decide_eq_true_eq] at h
  exact chain_disjoint_live pkg.fileEntries pkg.header.headerSize h.1.2

/-- Witness for C4 at a concrete state: flushing the small dirty package
keeps the invariant, and the remaining live ranges are disjoint. -/
theorem C4_witness :
    pkgInv smallDirtyPkg = true ∧
    pkgInv (flush smallDirtyPkg) = true ∧
    pairwiseDisjointB (liveList (flush smallDirtyPkg).fileEntries) = true := by
  have h : pkgInv smallDirtyPkg = true := by decide
  have h2 := C4_live_ranges_disjoint.2.2.2.1 smallDirtyPkg h
  exact ⟨h, h2, C4_live_ranges_disjoint.2.2.2.2.2 (flush smallDirtyPkg) h2⟩

/-! ## The first-fit characterization of insertFile -/

theorem liveEndUpTo_zero (a : Nat) (es : List FileEntry) : liveEndUpTo a es 0 = a := rfl

theorem liveEndUpTo_succ_cons (a : Nat) (e : FileEntry) (es : List FileEntry) (j : Nat) :
    liveEndUpTo a (e :: es) (j + 1) =
      if isDeleted e then liveEndUpTo a es j
      else liveEndUpTo (e.byteOffset + e.fileSize) es j := by
  unfold liveEndUpTo
  rw [List.take_succ_cons, liveEnd]

theorem find?_map {α β : Type} (f : α → β) (p : β → Bool) :
    ∀ l : List α, (l.map f).find? p = (l.find? (fun a => p (f a))).map f := by
  intro l
  induction l with
  | nil => rfl
  | cons a l ih =>
    rw [List.map_cons, List.find?_cons, List.find?_cons]
    by_cases hp : p (f a) = true
    · rw [hp]
      rfl
    · rw [Bool.not_eq_true] at hp
      rw [hp]
      exact ih

theorem find?_congr {α : Type} (p q : α → Bool) :
    ∀ l : List α, (∀ a ∈ l, p a = q a) → l.find? p = l.find? q := by
  intro l
  induction l with
  | nil => intro _; rfl
  | cons a l ih =>
    intro h
    rw [List.find?_cons, List.find?_cons]
    rw [h a (List.mem_cons_self a l)]
    by_cases hq : q a = true
    · rw [hq]
    · rw [Bool.not_eq_true] at hq
      rw [hq]
      exact ih (fun x hx => h x (List.mem_cons_of_mem a hx))

theorem findPos_eq_firstFit (s : Nat) :
    ∀ es lastEnd, chainFromB lastEnd es = true →
      findPos s lastEnd es =
        (firstFitIndex lastEnd s es).map (fun j => (j, liveEndUpTo lastEnd es j)) := by
  intro es
  induction es with
  | nil => intro lastEnd _; rfl
  | cons e es ih =>
    intro lastEnd hch
    rw [chainFromB] at hch
    rw [findPos]
    unfold firstFitIndex
    rw [show (e :: es).length = es.length + 1 from rfl]
    rw [List.range_succ_eq_map]
    rw [List.find?_cons]
    by_cases hd : isDeleted e = true
    · rw [if_pos hd] at hch ⊢
      rw [show (match (e :: es).get? 0 with
          | some x => !isDeleted x && decide (liveEndUpTo lastEnd (e :: es) 0 + s ≤ x.byteOffset)
          | none => false) = false from by rw [show (e :: es).get? 0 = some e from rfl]; simp [hd]]
      rw [find?_map Nat.succ]
      rw [find?_congr _ (fun j => match es.get? j with
          | some x => !isDeleted x && decide (liveEndUpTo lastEnd es j + s ≤ x.byteOffset)
          | none => false) (List.range es.length) (by
        intro j hj
        show (match (e :: es).get? (j + 1) with
          | some x => !isDeleted x && decide (liveEndUpTo lastEnd (e :: es) (j + 1) + s ≤ x.byteOffset)
          | none => false) = _
        rw [show (e :: es).get? (j + 1) = es.get? j from rfl]
        rw [liveEndUpTo_succ_cons, if_pos hd])]
      rw [ih lastEnd hch]
      unfold firstFitIndex
      cases hf : (List.range es.length).find? (fun j => match es.get? j with
          | some x => !isDeleted x && decide (liveEndUpTo lastEnd es j + s ≤ x.byteOffset)
          | none => false) with
      | none => rfl
      | some j =>
        simp only [Option.map_some']
        rw [liveEndUpTo_succ_cons, if_pos hd]
    · rw [if_neg hd] at hch ⊢
      simp only [Bool.and_eq_true, decide_eq_true_eq] at hch
      obtain ⟨⟨h1, h2⟩, h3⟩ := hch
      have hsub : sub64 e.byteOffset lastEnd = e.byteOffset - lastEnd :=
        sub64_eq e.byteOffset lastEnd h1 (by omega)
      by_cases hfit : s ≤ sub64 e.byteOffset lastEnd
      · rw [if_pos hfit]
        rw [show (match (e :: es).get? 0 with
            | some x => !isDeleted x && decide (liveEndUpTo lastEnd (e :: es) 0 + s ≤ x.byteOffset)
            | none => false) = true from by
          rw [show (e :: es).get? 0 = some e from rfl]
          rw [hsub] at hfit
          simp [hd, liveEndUpTo_zero]
          omega]
        rfl
      · rw [if_neg hfit]
        rw [show (match (e :: es).get? 0 with
            | some x => !isDeleted x && decide (liveEndUpTo lastEnd (e :: es) 0 + s ≤ x.byteOffset)
            | none => false) = false from by
          rw [show (e :: es).get? 0 = some e from rfl]
          rw [hsub] at hfit
          simp [hd, liveEndUpTo_zero]
          omega]
        rw [Nat.mod_eq_of_lt h2]
        rw [find?_map Nat.succ]
        rw [find?_congr _ (fun j => match es.get? j with
            | some x => !isDeleted x &&
                decide (liveEndUpTo (e.byteOffset + e.fileSize) es j + s ≤ x.byteOffset)
            | none => false) (List.range es.length) (by
          intro j hj
          show (match (e :: es).get? (j + 1) with
            | some x => !isDeleted x &&
                decide (liveEndUpTo lastEnd (e :: es) (j + 1) + s ≤ x.byteOffset)
            | none => false) = _
          rw [show (e :: es).get? (j + 1) = es.get? j from rfl]
          rw [liveEndUpTo_succ_cons, if_neg hd])]
        rw [ih (e.byteOffset + e.fileSize) h3]
        unfold firstFitIndex
        cases hf : (List.range es.length).find? (fun j => match es.get? j with
            | some x => !isDeleted x &&
                decide (liveEndUpTo (e.byteOffset + e.fileSize) es j + s ≤ x.byteOffset)
            | none => false) with
        | none => rfl
        | some j =>
          simp only [Option.map_some']
          rw [liveEndUpTo_succ_cons, if_neg hd]

/-- C5 counterexample: on an archive with "a" at `[40,50)` and "b" at
`[50,60)`, tombstone "b" and add "c" of 25 bytes (no gap fits): the new
entry is appended at offset 60 — the end of the last *table* entry, the
tombstoned "b" — not at 50, the end of the last *live* entry as the claim
states. -/
theorem C5_counterexample :
    ((removeFile (openPackage twoEntryInput false) "b").bind
      (fun r => addFile r.2 true 25 "c" 0)).map
      (fun r => (r.1, r.2.fileEntries.map (fun e => (e.byteOffset, isDeleted e)))) =
      some (true, [(40, false), (50, true), (60, false)]) ∧
    ((removeFile (openPackage twoEntryInput false) "b").map
      (fun r => liveEnd r.2.header.headerSize r.2.fileEntries)) = some 50 :=
  ⟨by decide, by decide⟩

/-- C5 (amended): on a table satisfying the allocation-chain invariant,
`insertFile` places by first-fit exactly as the spec words it — splicing
the entry and its name before the first live entry whose offset leaves a
gap of at least the new size after the end of the live entries preceding
it, with `byteOffset` that end — except for the append case: when no gap
fits, the offset is the end of the last *table* entry (live or
tombstoned), or `sizeof(PackageHeader)` — not `headerSize` — when the
table is empty. -/
theorem C5_insertFile_first_fit (hdr : PackageHeader) (entries : List FileEntry)
    (names : List String) (table : List Int) (entry : FileEntry) (nm : String)
    (hch : chainFromB hdr.headerSize entries = true)
    (hte : tableEndOkB hdr.headerSize entries = true) :
    insertFile hdr entries names table entry nm =
      match firstFitIndex hdr.headerSize entry.fileSize entries with
      | some j =>
        { fileEntries := insertAt j
            ({ entry with byteOffset := liveEndUpTo hdr.headerSize entries j }) entries,
          filenames := insertAt j nm names,
          hashTable := fixHashTable table j,
          fileEntryOffset := hdr.fileEntryOffset,
          byteOffset := liveEndUpTo hdr.headerSize entries j }
      | none =>
        { fileEntries := entries ++ [{ entry with byteOffset := appendEnd entries }],
          filenames := names ++ [nm],
          hashTable := table,
          fileEntryOffset := (appendEnd entries + entry.fileSize) % U64,
          byteOffset := appendEnd entries } := by
  unfold insertFile
  rw [findPos_eq_firstFit entry.fileSize entries hdr.headerSize hch]
  cases hf : firstFitIndex hdr.headerSize entry.fileSize entries with
  | some j => rfl
  | none =>
    dsimp only [Option.map_none']
    unfold appendEnd
    cases hl : entries.getLast? with
    | none => rfl
    | some last =>
      unfold tableEndOkB at hte
      rw [hl] at hte
      simp only [Bool.and_eq_true, decide_eq_true_eq] at hte
      dsimp only
      rw [Nat.mod_eq_of_lt hte.2]

/-- Witness for C5 at a concrete state: no gap fits a 5-byte entry in the
two-entry archive, so it is appended at the end of the last table
entry. -/
theorem C5_witness :
    (insertFile (openPackage twoEntryInput false).header
      (openPackage twoEntryInput false).fileEntries
      (openPackage twoEntryInput false).filenames
      (openPackage twoEntryInput false).hashTable entryT "t").byteOffset =
      appendEnd (openPackage twoEntryInput false).fileEntries := by
  have h := C5_insertFile_first_fit (openPackage twoEntryInput false).header
    (openPackage twoEntryInput false).fileEntries
    (openPackage twoEntryInput false).filenames
    (openPackage twoEntryInput false).hashTable entryT "t" (by decide) (by decide)
  rw [h]
  rw [show firstFitIndex (openPackage twoEntryInput false).header.headerSize entryT.fileSize
    (openPackage twoEntryInput false).fileEntries = none from by decide]
